import Mathlib

/-!
# Verification of the chrono-patient-uploader core

Shallow embedding of the filename-pattern compiler/parser (`src/parser.py`),
the remote-client retry and lookup logic (`src/api.py`) and the per-file
batch-processing state machine (`src/processor.py`), with theorems settling
the specification claims.

Strings are modelled as `List Char`; Python's `None`-or-`str` values as
`Option (List Char)`.  Python exceptions are modelled with `Except`.
-/

namespace Chrono

/-! ## Python string primitives (ASCII fragment used by the code) -/

/-- Python whitespace for `str.strip` / `\s` (ASCII fragment). -/
def pyIsSpace (c : Char) : Bool :=
  c = ' ' || c = '\t' || c = '\n' || c = '\x0d' || c = '\x0b' || c = '\x0c'

/-- `str.upper` on one character (ASCII fragment). -/
def pyUpperChar (c : Char) : Char :=
  if 'a' ≤ c ∧ c ≤ 'z' then Char.ofNat (c.toNat - 32) else c

/-- `str.upper` (ASCII fragment). -/
def pyUpper (s : List Char) : List Char := s.map pyUpperChar

/-- `str.strip()` with no argument: drop whitespace from both ends. -/
def pyStrip (s : List Char) : List Char :=
  ((s.dropWhile pyIsSpace).reverse.dropWhile pyIsSpace).reverse

/-- ASCII decimal digit (`str.isdigit` / regex `\d`, ASCII fragment). -/
def isDigitChar (c : Char) : Bool := '0' ≤ c && c ≤ '9'

/-- Numeric value of a decimal digit string (Python `int(...)` on digits). -/
def digitsToNat (s : List Char) : Nat :=
  s.foldl (fun acc c => 10 * acc + (c.toNat - '0'.toNat)) 0

/-! ## `datetime.date` (proleptic Gregorian, as used by `parse_date_mmddyy`) -/

structure PyDate where
  year : Nat
  month : Nat
  day : Nat
  deriving DecidableEq, Repr

def isLeapYear (y : Nat) : Bool :=
  y % 4 = 0 && (y % 100 ≠ 0 || y % 400 = 0)

def daysInMonth (y m : Nat) : Nat :=
  if m = 2 then (if isLeapYear y then 29 else 28)
  else if m = 4 ∨ m = 6 ∨ m = 9 ∨ m = 11 then 30
  else 31

/-- Validity check performed by the `datetime.date` constructor
(year range `1..9999`, month `1..12`, day within the month). -/
def validDate (y m d : Nat) : Bool :=
  1 ≤ y && y ≤ 9999 && 1 ≤ m && m ≤ 12 && 1 ≤ d && d ≤ daysInMonth y m

/-- Left-pad a number with zeros, as `date.isoformat` renders components. -/
def padNat (w n : Nat) : List Char :=
  let s := (toString n).data
  List.replicate (w - s.length) '0' ++ s

/-- `date.isoformat()`. -/
def isoformat (d : PyDate) : List Char :=
  padNat 4 d.year ++ ['-'] ++ padNat 2 d.month ++ ['-'] ++ padNat 2 d.day

/-! ## Regular expressions (the fragment generated by `compile_pattern`)

`compile_pattern` only ever emits: escaped literals, the character classes
`[^,]`, `[A-Z]`, `\d`, `\s`, `.`, the quantifiers `+`, `+?`, `*`, `{6}`
applied to single-character classes, an alternation of escaped literal tag
codes, optional non-capturing groups `(?:...)?`, and named capture groups.
The embedding below covers exactly that fragment with Python's backtracking
preference order: `mmatch` returns every way the expression can match a
prefix of the input, ordered by the engine's exploration order, so the head
of the (end-anchored) result list is the match Python reports. -/

/-- Named capture groups appearing in compiled patterns. -/
inductive GName where
  | lastName | firstName | middleInitial | tag | date | dob | descr
  deriving DecidableEq, Repr

/-- Captured groups: `none` = the group did not participate in the match
(Python reports `None` in `groupdict()`). -/
structure Caps where
  lastName : Option (List Char) := none
  firstName : Option (List Char) := none
  middleInitial : Option (List Char) := none
  tag : Option (List Char) := none
  date : Option (List Char) := none
  dob : Option (List Char) := none
  descr : Option (List Char) := none
  deriving DecidableEq, Repr

def setG (g : Caps) : GName → List Char → Caps
  | .lastName, v => { g with lastName := some v }
  | .firstName, v => { g with firstName := some v }
  | .middleInitial, v => { g with middleInitial := some v }
  | .tag, v => { g with tag := some v }
  | .date, v => { g with date := some v }
  | .dob, v => { g with dob := some v }
  | .descr, v => { g with descr := some v }

def getG (g : Caps) : GName → Option (List Char)
  | .lastName => g.lastName
  | .firstName => g.firstName
  | .middleInitial => g.middleInitial
  | .tag => g.tag
  | .date => g.date
  | .dob => g.dob
  | .descr => g.descr

/-- Single-character classes used by the generated regexes. -/
inductive CharClass where
  | any        -- `.` : any character except newline
  | digit      -- `\d` (ASCII fragment)
  | upperAlpha -- `[A-Z]`
  | notComma   -- `[^,]`
  | space      -- `\s` (ASCII fragment)
  deriving DecidableEq, Repr

def cmatch : CharClass → Char → Bool
  | .any, c => c ≠ '\n'
  | .digit, c => isDigitChar c
  | .upperAlpha, c => 'A' ≤ c && c ≤ 'Z'
  | .notComma, c => c ≠ ','
  | .space, c => pyIsSpace c

/-- Regex AST for the fragment `compile_pattern` generates.  In `plus`,
the `Bool` is `true` for greedy `+` and `false` for lazy `+?`. -/
inductive RE where
  | lit : List Char → RE
  | cls : CharClass → RE
  | plus : Bool → CharClass → RE
  | star : CharClass → RE
  | rep : CharClass → Nat → RE
  | seq : RE → RE → RE
  | alts : List (List Char) → RE
  | opt : RE → RE
  | grp : GName → RE → RE
  deriving DecidableEq, Repr

/-- Length of the maximal prefix of `s` whose characters all match `c`. -/
def runLen (c : CharClass) : List Char → Nat
  | [] => 0
  | ch :: rest => if cmatch c ch then runLen c rest + 1 else 0

/-- `[n, n-1, ..., 1]` — greedy exploration order for `+`. -/
def descFrom : Nat → List Nat
  | 0 => []
  | n + 1 => (n + 1) :: descFrom n

/-- `[s, s+1, ..., s+n-1]` — lazy exploration order for `+?`. -/
def ascRange (s : Nat) : Nat → List Nat
  | 0 => []
  | n + 1 => s :: ascRange (s + 1) n

/-- All ways `r` can match a prefix of `s`, in Python's backtracking
preference order, each with the updated captures and the rest of the
input. -/
def mmatch : RE → List Char → Caps → List (Caps × List Char)
  | .lit l, s, g => if l.isPrefixOf s then [(g, s.drop l.length)] else []
  | .cls c, s, g =>
      match s with
      | [] => []
      | ch :: rest => if cmatch c ch then [(g, rest)] else []
  | .plus greedy c, s, g =>
      let n := runLen c s
      (if greedy then descFrom n else ascRange 1 n).map fun k => (g, s.drop k)
  | .star c, s, g =>
      let n := runLen c s
      (descFrom n ++ [0]).map fun k => (g, s.drop k)
  | .rep c n, s, g => if n ≤ runLen c s then [(g, s.drop n)] else []
  | .seq a b, s, g => (mmatch a s g).flatMap fun p => mmatch b p.2 p.1
  | .alts ls, s, g =>
      ls.flatMap fun l => if l.isPrefixOf s then [(g, s.drop l.length)] else []
  | .opt r, s, g => mmatch r s g ++ [(g, s)]
  | .grp n r, s, g =>
      (mmatch r s g).map fun p => (setG p.1 n (s.take (s.length - p.2.length)), p.2)

/-- Right-nested sequencing of a list of parts (the `"".join` of the
compiled parts, which is a flat concatenation). -/
def seqList (l : List RE) : RE := l.foldr RE.seq (.lit [])

/-- The `$` anchor: Python's `$` matches at the end of the string or just
before a trailing newline. -/
def endOk (s : List Char) : Bool := s = [] || s = ['\n']

/-- `pattern_re.match(stem)` for an anchored pattern `^...$`: the first
result in preference order that reaches the end anchor. -/
def pymatch (r : RE) (s : List Char) : Option Caps :=
  ((mmatch r s {}).find? fun p => endOk p.2).map Prod.fst

/-- Groups of a regex (keys of Python's `groupdict()`). -/
def definedGroups : RE → GName → Bool
  | .lit _, _ => false
  | .cls _, _ => false
  | .plus _ _, _ => false
  | .star _, _ => false
  | .rep _ _, _ => false
  | .alts _, _ => false
  | .seq a b, n => definedGroups a n || definedGroups b n
  | .opt r, n => definedGroups r n
  | .grp m r, n => (m = n : Bool) || definedGroups r n

/-- Groups guaranteed to participate in any successful match (not under
an optional group). -/
def mandatory : RE → GName → Bool
  | .lit _, _ => false
  | .cls _, _ => false
  | .plus _ _, _ => false
  | .star _, _ => false
  | .rep _ _, _ => false
  | .alts _, _ => false
  | .seq a b, n => mandatory a n || mandatory b n
  | .opt _, _ => false
  | .grp m r, n => (m = n : Bool) || mandatory r n

/-! ## `parse_date_mmddyy` (src/parser.py lines 91-101) -/

/-- `parse_date_mmddyy`: 6-digit `MMDDYY`; two-digit year pivot at 50. -/
def parse_date_mmddyy (s : List Char) : Option PyDate :=
  if s.length = 6 ∧ s.all isDigitChar then
    let mm := digitsToNat (s.take 2)
    let dd := digitsToNat ((s.drop 2).take 2)
    let yy := digitsToNat (s.drop 4)
    let year := if yy ≤ 50 then 2000 + yy else 1900 + yy
    if validDate year mm dd then some ⟨year, mm, dd⟩ else none
  else none

/-! ## `compile_pattern` (src/parser.py lines 24-88)

The Python code scans the template with `re.finditer(r"\{(\w+)\}")` and
joins the produced regex part strings.  `tokenize` reproduces the scan:
it yields, for each placeholder occurrence, the literal text before it,
plus the trailing literal.  `re.escape` only affects regex source text,
never the matched language, so escaped literals are plain `RE.lit`. -/

/-- Python `\w` (ASCII fragment). -/
def isWordChar (c : Char) : Bool :=
  ('a' ≤ c && c ≤ 'z') || ('A' ≤ c && c ≤ 'Z') || isDigitChar c || c = '_'

def consTok (c : Char) :
    List (List Char × List Char) × List Char →
    List (List Char × List Char) × List Char
  | ([], tr) => ([], c :: tr)
  | ((l, n) :: t, tr) => ((c :: l, n) :: t, tr)

/-- The scan for `\{(\w+)\}`, structurally recursive on a fuel argument;
one unit of fuel is spent per character position examined, so fuel
`s.length` always suffices. -/
def tokenizeF : Nat → List Char → List (List Char × List Char) × List Char
  | 0, _ => ([], [])
  | _, [] => ([], [])
  | fuel + 1, c :: rest =>
      if c = '{' then
        let w := rest.takeWhile isWordChar
        let rest2 := rest.drop w.length
        if w ≠ [] ∧ rest2.head? = some '}' then
          let p := tokenizeF fuel rest2.tail
          (([], w) :: p.1, p.2)
        else consTok c (tokenizeF fuel rest)
      else consTok c (tokenizeF fuel rest)

/-- Split a template into `([(literal_before, placeholder_name), ...],
trailing_literal)`, scanning left to right for `\{(\w+)\}`. -/
def tokenize (s : List Char) : List (List Char × List Char) × List Char :=
  tokenizeF s.length s

/-- Stable sort of the tag codes by descending length
(`sorted(metatags.keys(), key=len, reverse=True)`; Python's sort is
stable and `reverse=True` preserves the order of equal-length keys). -/
def insertDesc (x : List Char) : List (List Char) → List (List Char)
  | [] => [x]
  | y :: ys => if y.length ≤ x.length then x :: y :: ys else y :: insertDesc x ys

def sortKeysDesc (keys : List (List Char)) : List (List Char) :=
  keys.foldr insertDesc []

/-- The atoms of the optional middle-initial group
`(?:,\s*(?P<middle_initial>[^,]+?))?`. -/
def miAtoms : List RE :=
  [.lit [','], .star .space, .grp .middleInitial (.plus false .notComma)]

/-- The atoms of the `{name}` placeholder regex
`(?P<last_name>[^,]+),\s*(?P<first_name>[^,]+?)(?:,\s*(?P<middle_initial>[^,]+?))?`. -/
def nameAtoms : List RE :=
  [.grp .lastName (.plus true .notComma), .lit [','], .star .space,
    .grp .firstName (.plus false .notComma), .opt (seqList miAtoms)]

/-- The `{name}` placeholder regex. -/
def nameRE : RE := seqList nameAtoms

/-- `_PLACEHOLDER_REGEX` plus the `tag` alternation; `none` = unknown name. -/
def placeholderRE (metatags : List (List Char × List Char))
    (name : List Char) : Option RE :=
  if name = "name".data then some nameRE
  else if name = "last_name".data then some (.grp .lastName (.plus false .any))
  else if name = "first_name".data then
    some (.grp .firstName (.plus false .any))
  else if name = "middle_initial".data then
    some (.grp .middleInitial (.cls .upperAlpha))
  else if name = "date".data then some (.grp .date (.rep .digit 6))
  else if name = "dob".data then some (.grp .dob (.rep .digit 6))
  else if name = "tag".data then
    some (.grp .tag (.alts (sortKeysDesc (metatags.map Prod.fst))))
  else none

/-- `(?P<description>.+)`. -/
def descrRE : RE := .grp .descr (.plus true .any)

def descriptionName : List Char := "description".data

inductive CompileErr where
  | unknownPlaceholder : List Char → CompileErr
  | missingDescription : CompileErr
  deriving DecidableEq, Repr

/-- The compile loop over the placeholder occurrences: builds the regex
parts and the `found_description` flag.  A `({placeholder})` wrapping
(literal before ends in `(` and the character after the placeholder is
`)`) turns the part into an optional group and consumes the `)`.  One
unit of fuel is spent per placeholder, so fuel `ps.length` always
suffices. -/
def buildPartsF (metatags : List (List Char × List Char)) :
    Nat → List (List Char × List Char) → List Char →
    Except CompileErr (List RE × Bool)
  | _, [], trailing =>
      .ok (if trailing = [] then [] else [.lit trailing], false)
  | 0, _ :: _, _ => .ok ([], false)
  | fuel + 1, (litB, name) :: rest, trailing =>
      let nextText := match rest with
        | (l2, _) :: _ => l2
        | [] => trailing
      let ph : Except CompileErr (RE × Bool) :=
        if name = descriptionName then .ok (descrRE, true)
        else match placeholderRE metatags name with
          | some r => .ok (r, false)
          | none => .error (.unknownPlaceholder name)
      if litB.getLast? = some '(' ∧ nextText.head? = some ')' then
        match ph with
        | .error e => .error e
        | .ok (r, isDescr) =>
            let litCore := litB.dropLast
            let wrapped := RE.opt (seqList [.lit ['('], r, .lit [')']])
            let rest' := match rest with
              | (l2, n2) :: rt => (l2.tail, n2) :: rt
              | [] => []
            let trailing' := match rest with
              | _ :: _ => trailing
              | [] => trailing.tail
            match buildPartsF metatags fuel rest' trailing' with
            | .error e => .error e
            | .ok (parts, found) =>
                .ok ((if litCore = [] then [] else [.lit litCore]) ++
                      wrapped :: parts, isDescr || found)
      else
        match ph with
        | .error e => .error e
        | .ok (r, isDescr) =>
            match buildPartsF metatags fuel rest trailing with
            | .error e => .error e
            | .ok (parts, found) =>
                .ok ((if litB = [] then [] else [.lit litB]) ++ r :: parts,
                      isDescr || found)

def buildParts (metatags : List (List Char × List Char))
    (ps : List (List Char × List Char)) (trailing : List Char) :
    Except CompileErr (List RE × Bool) :=
  buildPartsF metatags ps.length ps trailing

/-- `compile_pattern` (src/parser.py lines 24-88). -/
def compile_pattern (pattern : List Char)
    (metatags : List (List Char × List Char)) : Except CompileErr RE :=
  match buildParts metatags (tokenize pattern).1 (tokenize pattern).2 with
  | .error e => .error e
  | .ok (parts, found) =>
      if found then .ok (seqList parts) else .error .missingDescription

def DEFAULT_PATTERN : List Char := "{name}({dob})_{tag}_{date}_{description}".data

/-! ## `parse_filename` (src/parser.py lines 104-148) -/

/-- `Path(filename).stem` on the final path component. -/
def stemName (name : List Char) : List Char :=
  let afterDot := name.reverse.takeWhile (fun c => c ≠ '.')
  if afterDot.length = name.length then name
  else
    let i := name.length - afterDot.length - 1
    if 0 < i ∧ i < name.length - 1 then name.take i else name

/-- `Path(filename).stem`. -/
def stem (filename : List Char) : List Char :=
  stemName (filename.reverse.takeWhile (fun c => c ≠ '/')).reverse

/-- Python exceptions `parse_filename` can raise when a named group is
present in the pattern but did not participate in the match
(`None.upper()` / `None.strip()` → `AttributeError`, `len(None)` →
`TypeError`). -/
inductive PyExn where
  | attributeError
  | typeError
  deriving DecidableEq, Repr

instance {ε α : Type} [DecidableEq ε] [DecidableEq α] :
    DecidableEq (Except ε α) := fun x y =>
  match x, y with
  | .ok a, .ok b =>
      if h : a = b then .isTrue (by rw [h])
      else .isFalse fun hc => h (by injection hc)
  | .error a, .error b =>
      if h : a = b then .isTrue (by rw [h])
      else .isFalse fun hc => h (by injection hc)
  | .ok _, .error _ => .isFalse fun hc => Except.noConfusion hc
  | .error _, .ok _ => .isFalse fun hc => Except.noConfusion hc

/-- `groups.get(name, default)` over `m.groupdict()`: a group that exists
in the pattern is present in the dict (value `none` when it did not
participate); otherwise the default is returned. -/
def pyGet (r : RE) (g : Caps) (n : GName) (dflt : Option (List Char)) :
    Option (List Char) :=
  if definedGroups r n then getG g n else dflt

/-- First-match association lookup (Python dict lookup; keys unique). -/
def lookupAssoc : List (List Char × List Char) → List Char →
    Option (List Char)
  | [], _ => none
  | (k, v) :: t, key => if k = key then some v else lookupAssoc t key

/-- The record `parse_filename` constructs (src/parser.py lines 139-148).
Note: this models the constructor call in parser.py, which passes a `dob`
value; the pydantic model in types.py is missing that field (see claim
C2). -/
structure ParsedFilename where
  last_name : List Char
  first_name : List Char
  middle_initial : Option (List Char)
  dob : Option (List Char)
  tag_code : List Char
  tag_full : List Char
  date : List Char
  description : List Char
  deriving DecidableEq, Repr

/-- The field names of the `ParsedFilename` pydantic model as declared in
src/types.py lines 37-44 (pydantic silently drops constructor keywords not
in this list). -/
def types_ParsedFilename_fields : List String :=
  ["last_name", "first_name", "middle_initial", "tag_code", "tag_full",
   "date", "description"]

/-- `parse_filename` (src/parser.py lines 104-148), with Python exceptions
made explicit. -/
def parse_filename (filename : List Char)
    (metatags : List (List Char × List Char)) (r : RE) :
    Except PyExn (Option ParsedFilename) :=
  match pymatch r (stem filename) with
  | none => .ok none
  | some groups =>
    match pyGet r groups .tag (some []) with
    | none => .error .attributeError
    | some tagRaw =>
      let tag_code := pyUpper tagRaw
      match lookupAssoc metatags tag_code with
      | none => .ok none
      | some tag_full =>
        match pyGet r groups .date (some []) with
        | none => .error .typeError
        | some dateRaw =>
          match parse_date_mmddyy dateRaw with
          | none => .ok none
          | some doc_date =>
            match pyGet r groups .lastName (some []) with
            | none => .error .attributeError
            | some lastRaw =>
              match pyGet r groups .firstName (some []) with
              | none => .error .attributeError
              | some firstRaw =>
                let last_name := pyStrip lastRaw
                let first_name := pyStrip firstRaw
                let middle_initial : Option (List Char) :=
                  match pyGet r groups .middleInitial none with
                  | some m =>
                      if m = [] then some []
                      else if pyStrip m = [] then none else some (pyStrip m)
                  | none => none
                match pyGet r groups .descr (some []) with
                | none => .error .attributeError
                | some descrRaw =>
                  let description := pyStrip descrRaw
                  let dob_iso : Option (List Char) :=
                    match pyGet r groups .dob none with
                    | some dv =>
                        if dv = [] then none
                        else (parse_date_mmddyy dv).map isoformat
                    | none => none
                  if last_name = [] ∨ first_name = [] then .ok none
                  else
                    .ok (some
                      { last_name := last_name
                        first_name := first_name
                        middle_initial := middle_initial
                        dob := dob_iso
                        tag_code := tag_code
                        tag_full := tag_full
                        date := isoformat doc_date
                        description :=
                          if description = [] then tag_full else description })

/-- The regex `compile_pattern` produces for `DEFAULT_PATTERN`
(proved below in `compile_default`). -/
def defaultRE (mt : List (List Char × List Char)) : RE :=
  seqList [nameRE,
    .opt (seqList [.lit ['('], .grp .dob (.rep .digit 6), .lit [')']]),
    .lit ['_'], .grp .tag (.alts (sortKeysDesc (mt.map Prod.fst))),
    .lit ['_'], .grp .date (.rep .digit 6),
    .lit ['_'], descrRE]

/-- The atoms of the optional `({dob})` group of the default pattern. -/
def dobAtoms : List RE :=
  [.lit ['('], .grp .dob (.rep .digit 6), .lit [')']]

/-- The atoms of the default pattern after the name and dob parts. -/
def tailAtoms (mt : List (List Char × List Char)) : List RE :=
  [.lit ['_'], .grp .tag (.alts (sortKeysDesc (mt.map Prod.fst))),
   .lit ['_'], .grp .date (.rep .digit 6), .lit ['_'], descrRE]

/-- `noWrapF names` holds when no placeholder occurrence whose name is in
`names` is `({...})`-wrapped; it mirrors the recursion of `buildPartsF`. -/
def noWrapF (names : List (List Char)) :
    Nat → List (List Char × List Char) → List Char → Bool
  | _, [], _ => true
  | 0, _ :: _, _ => true
  | fuel + 1, (litB, name) :: rest, trailing =>
      let nextText := match rest with
        | (l2, _) :: _ => l2
        | [] => trailing
      if litB.getLast? = some '(' ∧ nextText.head? = some ')' then
        decide (name ∉ names) &&
          (match rest with
           | (l2, n2) :: rt => noWrapF names fuel ((l2.tail, n2) :: rt) trailing
           | [] => noWrapF names fuel [] trailing.tail)
      else noWrapF names fuel rest trailing

/-- The template-level hypothesis of claim C10: none of `{tag}`, `{date}`,
`{description}` is optional-wrapped. -/
def noWrapTagDateDescr (pattern : List Char) : Bool :=
  noWrapF ["tag".data, "date".data, descriptionName]
    (tokenize pattern).1.length (tokenize pattern).1 (tokenize pattern).2

/-- The placeholder names whose capture groups `parse_filename` reads
with a `""` default (so a defined-but-non-participating group raises). -/
def sixNames : List (List Char) :=
  ["tag".data, "date".data, descriptionName, "name".data,
   "last_name".data, "first_name".data]

/-- The capture groups read with a `""` default in `parse_filename`. -/
def targetGroups : List GName :=
  [.tag, .date, .lastName, .firstName, .descr]

/-- The strengthened hypothesis: additionally `{name}`, `{last_name}`,
`{first_name}` are not optional-wrapped. -/
def noWrapNameGroups (pattern : List Char) : Bool :=
  noWrapF sixNames
    (tokenize pattern).1.length (tokenize pattern).1 (tokenize pattern).2

/-! ## Remote client: retry wrapper (src/api.py lines 24-86) -/

def MAX_RETRIES : Nat := 3
def BACKOFF_BASE : ℚ := 2
def BACKOFF_MAX : ℚ := 30

/-- An HTTP response as the retry wrapper sees it: status code and the
`Retry-After` header (if present). -/
structure HttpResponse where
  status : Nat
  retryAfter : Option (List Char)

/-- Python `float(str)` on the plain decimal fragment
(`[+-]? digits [. digits?] | [+-]? . digits`, surrounding whitespace
stripped); `none` models `ValueError`.  Exponents/`inf`/`nan`/underscores
do not occur in `Retry-After` headers and are not modelled. -/
def parseFloat (s : List Char) : Option ℚ :=
  let t := pyStrip s
  let sign : ℚ := match t with
    | '-' :: _ => -1
    | _ => 1
  let t := match t with
    | '-' :: r => r
    | '+' :: r => r
    | _ => t
  let intPart := t.takeWhile isDigitChar
  let rest := t.drop intPart.length
  match rest with
  | [] => if intPart = [] then none else some (sign * digitsToNat intPart)
  | '.' :: frac =>
      let fd := frac.takeWhile isDigitChar
      if frac.drop fd.length ≠ [] then none
      else if intPart = [] ∧ fd = [] then none
      else some (sign * ((digitsToNat intPart : ℚ) +
        (digitsToNat fd : ℚ) / (10 : ℚ) ^ fd.length))
  | _ => none

/-- Terminal behaviour of `_request_with_retry`.  `sleeps` records the
`time.sleep` argument before each performed retry. -/
inductive RetryOutcome where
  | success (attempt : Nat) (sleeps : List ℚ)
  | rateLimited (retryAfter : Option ℚ) (isAppLimit : Bool) (sleeps : List ℚ)
  | valueError (attempt : Nat) (sleeps : List ℚ)
  | unreachable
  deriving DecidableEq

/-- The retry loop body (src/api.py lines 48-83).  `resp k` is the
response to the `k`-th request, `jitter k` the `random.uniform(0, 1)`
sample of iteration `k`.  `valueError` models the uncaught
`float(retry_after)` in the app-limit check (line 68) when the header is
present but not parseable. -/
def requestWithRetryGo (resp : Nat → HttpResponse) (jitter : Nat → ℚ) :
    List Nat → List ℚ → RetryOutcome
  | [], _ => .unreachable
  | k :: rest, sleeps =>
      let r := resp k
      if r.status ≠ 429 then .success k sleeps
      else
        let wait : ℚ := match r.retryAfter with
          | some s => match parseFloat s with
            | some v => v
            | none => BACKOFF_BASE * 2 ^ k
          | none => BACKOFF_BASE * 2 ^ k
        let wait := min wait BACKOFF_MAX + jitter k
        match r.retryAfter with
        | some s =>
            match parseFloat s with
            | none => .valueError k sleeps
            | some v =>
                let isApp := decide (v > 60)
                if rest.isEmpty then
                  .rateLimited (if s = [] then none else some v) isApp sleeps
                else requestWithRetryGo resp jitter rest (sleeps ++ [wait])
        | none =>
            if rest.isEmpty then .rateLimited none false sleeps
            else requestWithRetryGo resp jitter rest (sleeps ++ [wait])

/-- `_request_with_retry` (src/api.py lines 43-86). -/
def requestWithRetry (resp : Nat → HttpResponse) (jitter : Nat → ℚ) :
    RetryOutcome :=
  requestWithRetryGo resp jitter (List.range (MAX_RETRIES + 1)) []

/-! ## Remote client: `find_patient` narrowing (src/api.py lines 96-167)

The claim is about the treatment of the candidate list the server returns,
so the model takes that list as input and reproduces the narrowing and
classification (lines 118-163); the HTTP call and the per-run cache around
it are not part of the claim. -/

/-- One patient dict from the server.  `middle_name = none` models an
absent or `null` field (both collapse under `or ""`);
`date_of_birth = none` models an absent key, `some none` a `null` value
(they render differently in the summary). -/
structure Candidate where
  id : Int
  doctor : Option Int
  first_name : List Char
  last_name : List Char
  middle_name : Option (List Char)
  date_of_birth : Option (Option (List Char))
  deriving DecidableEq, Repr

inductive PatientLookupStatus where
  | found | notFound | multipleMatches
  deriving DecidableEq, Repr

structure PatientLookupResult where
  status : PatientLookupStatus
  patient_id : Option Int := none
  doctor_id : Option Int := none
  detail : Option (List Char) := none
  deriving DecidableEq, Repr

/-- Python truthiness of an optional string argument. -/
def pyTruthy : Option (List Char) → Bool
  | none => false
  | some s => s ≠ []

/-- `f"{p.get('date_of_birth', 'N/A')}"` in the summary line. -/
def dobRepr : Option (Option (List Char)) → List Char
  | none => "N/A".data
  | some none => "None".data
  | some (some v) => v

/-- One entry of the multiple-matches summary (src/api.py lines 148-152). -/
def candidateLine (p : Candidate) : List Char :=
  pyStrip (p.first_name ++ [' '] ++ (p.middle_name.getD []) ++ [' '] ++
      p.last_name) ++
    " (DOB: ".data ++ dobRepr p.date_of_birth ++ ", ID: ".data ++
    (toString p.id).data ++ [')']

/-- The narrowing and classification `find_patient` applies to the list of
candidates returned by the server (src/api.py lines 118-163). -/
def find_patient (results : List Candidate) (last_name first_name : List Char)
    (middle_initial : Option (List Char)) (dob : Option (List Char)) :
    PatientLookupResult :=
  let results :=
    if pyTruthy middle_initial ∧ results.length > 1 then
      let filtered := results.filter fun p =>
        (pyUpper (middle_initial.getD [])).isPrefixOf
          (pyUpper (p.middle_name.getD []))
      if filtered ≠ [] then filtered else results
    else results
  let results :=
    if results.length > 1 then
      let exact := results.filter fun p =>
        pyUpper p.last_name = pyUpper last_name ∧
        pyUpper p.first_name = pyUpper first_name
      if exact.length ≥ 1 then exact else results
    else results
  let results :=
    if pyTruthy dob ∧ results.length > 1 then
      let dobFiltered := results.filter fun p =>
        p.date_of_birth = some (some (dob.getD []))
      if dobFiltered ≠ [] then dobFiltered else results
    else results
  if results.length = 0 then { status := .notFound }
  else if results.length > 1 then
    { status := .multipleMatches
      detail := some (List.intercalate "; ".data (results.map candidateLine)) }
  else
    match results with
    | p :: _ => { status := .found, patient_id := some p.id,
                  doctor_id := p.doctor }
    | [] => { status := .notFound }

/-- The narrowing as the specification words it: three filters applied in
order, each only while more than one candidate remains, each kept only if
it leaves at least one result. -/
def narrowSpec (results : List Candidate) (last_name first_name : List Char)
    (middle_initial : Option (List Char)) (dob : Option (List Char)) :
    List Candidate :=
  let step1 :=
    if pyTruthy middle_initial ∧ results.length > 1 then
      let f := results.filter fun p =>
        (pyUpper (middle_initial.getD [])).isPrefixOf
          (pyUpper (p.middle_name.getD []))
      if f ≠ [] then f else results
    else results
  let step2 :=
    if step1.length > 1 then
      let f := step1.filter fun p =>
        pyUpper p.last_name = pyUpper last_name ∧
        pyUpper p.first_name = pyUpper first_name
      if f ≠ [] then f else step1
    else step1
  if pyTruthy dob ∧ step2.length > 1 then
    let f := step2.filter fun p => p.date_of_birth = some (some (dob.getD []))
    if f ≠ [] then f else step2
  else step2

/-- Classification as the specification words it: zero candidates →
NotFound, exactly one → Found with its ids, more → MultipleMatches with
the candidate summary. -/
def classifySpec (narrowed : List Candidate) : PatientLookupResult :=
  match narrowed with
  | [] => { status := .notFound }
  | [p] => { status := .found, patient_id := some p.id, doctor_id := p.doctor }
  | _ :: _ :: _ =>
      { status := .multipleMatches
        detail := some (List.intercalate "; ".data (narrowed.map candidateLine)) }

/-! ## Batch processor: `_process_single_file` (src/processor.py lines 50-191)

The per-file state machine is modelled over *stage oracles*: the outcome
each called operation (`find_patient`, `is_duplicate`, `upload_document`)
would produce for this file, either a value or a raised exception.  The
returned trace records which operations were actually invoked.  Printing
and the file move on success are I/O and are not modelled.  The record
below carries the `dob` field as parser.py constructs it (see claim C2
for the types.py discrepancy). -/

/-- An exception raised by a remote-client call: `RateLimitError` or a
`requests.RequestException` (connection/HTTP transport error). -/
inductive StageErr where
  | rateLimit (isAppLimit : Bool) (msg : List Char)
  | transport (msg : List Char)
  deriving DecidableEq, Repr

inductive UploadStatus where
  | success | failed
  deriving DecidableEq, Repr

structure UploadResult where
  status : UploadStatus
  document_id : Option Int := none
  detail : Option (List Char) := none
  deriving DecidableEq, Repr

inductive FileErrorReason where
  | parse_failed | patient_not_found | patient_multiple_matches
  | duplicate | upload_failed | rate_limited
  deriving DecidableEq, Repr

structure FileError where
  filename : List Char
  reason : FileErrorReason
  detail : Option (List Char) := none
  deriving DecidableEq, Repr

/-- `_FileResult` (src/processor.py lines 32-47); `category` defaults to
`"failed"` exactly as in the source. -/
structure FileResult where
  filename : List Char
  succeeded : Bool := false
  error : Option FileError := none
  category : List Char := "failed".data
  document_id : Option Int := none
  deriving DecidableEq, Repr

/-- Outcomes the three remote operations would produce for one file. -/
structure StageOracles where
  parseRes : Option ParsedFilename
  lookupRes : Except StageErr PatientLookupResult
  dupRes : Except StageErr Bool
  uploadRes : Except StageErr UploadResult
  deriving DecidableEq

inductive ApiCall where
  | lookup | dupCheck | upload
  deriving DecidableEq, Repr

/-- `f"{x}"` of an optional int (`None` prints as `"None"`). -/
def optIntRepr : Option Int → List Char
  | none => "None".data
  | some i => (toString i).data

/-- `_process_single_file` (src/processor.py lines 50-191): the result it
returns — or, if an exception escapes, that exception — together with the
list of remote operations invoked.  Only `RateLimitError` and
`requests.RequestException` are caught at the lookup and duplicate-check
stages, and only `RateLimitError` at the upload stage. -/
def process_single_file (filename : List Char) (o : StageOracles)
    (dry_run : Bool) : Except StageErr FileResult × List ApiCall :=
  match o.parseRes with
  | none =>
      (.ok { filename := filename
             error := some { filename := filename, reason := .parse_failed }
             category := "skipped".data }, [])
  | some parsed =>
    match o.lookupRes with
    | .error (.rateLimit _ msg) =>
        (.ok { filename := filename
               error := some { filename := filename, reason := .rate_limited,
                               detail := some msg } }, [.lookup])
    | .error (.transport msg) =>
        (.ok { filename := filename
               error := some { filename := filename, reason := .upload_failed,
                               detail := some ("patient lookup failed: ".data ++ msg) } },
         [.lookup])
    | .ok lookup =>
      if lookup.status ≠ .found then
        let reason := if lookup.status = .notFound then
            FileErrorReason.patient_not_found
          else FileErrorReason.patient_multiple_matches
        (.ok { filename := filename
               error := some { filename := filename, reason := reason,
                               detail := lookup.detail } }, [.lookup])
      else
        match o.dupRes with
        | .error (.rateLimit _ msg) =>
            (.ok { filename := filename
                   error := some { filename := filename, reason := .rate_limited,
                                   detail := some msg } }, [.lookup, .dupCheck])
        | .error (.transport msg) =>
            (.ok { filename := filename
                   error := some { filename := filename, reason := .upload_failed,
                                   detail := some ("duplicate check failed: ".data ++ msg) } },
             [.lookup, .dupCheck])
        | .ok dup =>
          if dup then
            (.ok { filename := filename
                   error := some { filename := filename, reason := .duplicate,
                                   detail := some ("patient ".data ++
                                     optIntRepr lookup.patient_id ++ ", date ".data ++
                                     parsed.date ++ ", description '".data ++
                                     parsed.description ++ ['\'']) }
                   category := "duplicate".data }, [.lookup, .dupCheck])
          else if dry_run then
            (.ok { filename := filename, succeeded := true }, [.lookup, .dupCheck])
          else
            match o.uploadRes with
            | .error (.rateLimit _ msg) =>
                (.ok { filename := filename
                       error := some { filename := filename, reason := .rate_limited,
                                       detail := some msg } },
                 [.lookup, .dupCheck, .upload])
            | .error (.transport msg) =>
                (.error (.transport msg), [.lookup, .dupCheck, .upload])
            | .ok result =>
              match result.status with
              | .success =>
                  (.ok { filename := filename, succeeded := true,
                         document_id := result.document_id },
                   [.lookup, .dupCheck, .upload])
              | .failed =>
                  (.ok { filename := filename
                         error := some { filename := filename,
                                         reason := .upload_failed,
                                         detail := result.detail } },
                   [.lookup, .dupCheck, .upload])

/-! ## Round-trip substitution (claim C4) -/

/-- Substituting field values into `DEFAULT_PATTERN`
(`{name}({dob})_{tag}_{date}_{description}`): `{name}` renders as
`last,first` or `last,first,middle`; the parenthesis pair around `{dob}`
is present only when a dob value is present. -/
def substDefault (L F : List Char) (M : Option (List Char))
    (DOB : Option (List Char)) (T DT DS : List Char) : List Char :=
  L ++ [','] ++ F ++
  (match M with | some m => [','] ++ m | none => []) ++
  (match DOB with | some d => ['('] ++ d ++ [')'] | none => []) ++
  ['_'] ++ T ++ ['_'] ++ DT ++ ['_'] ++ DS

/-- The rendering of the optional middle-initial field in a substituted
default filename. -/
def miPart : Option (List Char) → List Char
  | some m => ',' :: m
  | none => []

/-- The rendering of the optional dob field in a substituted default
filename. -/
def dobPart : Option (List Char) → List Char
  | some dv => '(' :: (dv ++ [')'])
  | none => []

/-- Captures after the optional middle-initial group. -/
def miCaps (g : Caps) : Option (List Char) → Caps
  | some m => setG g .middleInitial m
  | none => g

/-- Captures after the optional dob group. -/
def dobCaps (g : Caps) : Option (List Char) → Caps
  | some dv => setG g .dob dv
  | none => g

/-- A character that cannot collide with the delimiters of
`DEFAULT_PATTERN`, the extension-stripping of `Path(...).stem`, or
`str.strip`. -/
def plainNameChar (c : Char) : Bool :=
  c ≠ ',' && c ≠ '_' && c ≠ '(' && c ≠ '.' && c ≠ '/' && !pyIsSpace c

/-- Valid field values for the round-trip statement on `DEFAULT_PATTERN`:
names are non-empty and free of delimiter/extension/whitespace collisions,
the middle initial is a single uppercase letter, dates are valid `MMDDYY`
strings, the tag is one of the known codes, all codes are non-empty and
consist of uppercase letters, and the description is non-empty, dot-free,
slash-free, newline-free and has no surrounding whitespace. -/
def validFields (mt : List (List Char × List Char)) (L F : List Char)
    (M : Option (List Char)) (DOB : Option (List Char))
    (T DT DS : List Char) : Bool :=
  decide (L ≠ []) && L.all plainNameChar &&
  decide (F ≠ []) && F.all plainNameChar &&
  M.all (fun m => decide (m.length = 1) &&
    m.all fun c => decide ('A' ≤ c) && decide (c ≤ 'Z')) &&
  DOB.all (fun d => decide (d.length = 6) && d.all isDigitChar &&
    (parse_date_mmddyy d).isSome) &&
  decide (DT.length = 6) && DT.all isDigitChar &&
  (parse_date_mmddyy DT).isSome &&
  decide (T ∈ mt.map Prod.fst) &&
  (mt.map Prod.fst).all (fun k => decide (k ≠ []) &&
    k.all fun c => decide ('A' ≤ c) && decide (c ≤ 'Z')) &&
  decide (DS ≠ []) &&
  DS.all (fun c => decide (c ≠ '.') && decide (c ≠ '/') && decide (c ≠ '\n')) &&
  (match DS.head? with | some c => !pyIsSpace c | none => true) &&
  (match DS.getLast? with | some c => !pyIsSpace c | none => true)

/-- `mrun rs s g`: match the regexes `rs` in sequence against `s`, in
backtracking preference order (the flat view of nested `seq`s, used to
reason about the first reported match). -/
def mrun : List RE → List Char → Caps → List (Caps × List Char)
  | [], s, g => [(g, s)]
  | r :: rs, s, g => (mmatch r s g).flatMap fun p => mrun rs p.2 p.1

end Chrono

namespace Chrono

/-! ## Theorems -/

set_option maxRecDepth 8000

/-- `compile_pattern` on the default template yields `defaultRE`. -/
theorem compile_default (mt : List (List Char × List Char)) :
    compile_pattern DEFAULT_PATTERN mt = .ok (defaultRE mt) := rfl

/-! ### Claim C2 -/

/-- **C2** (code bug): for an accepted filename carrying a date of birth,
`parse_filename` (parser.py lines 139-148) computes and passes a
normalized ISO-8601 `dob` value, but the `ParsedFilename` pydantic model
declared in types.py lines 37-44 has no `dob` (`date_of_birth`) field, so
the constructed record cannot carry it (pydantic drops the extra keyword,
and the `parsed.dob` access in processor.py line 78 raises
`AttributeError`).  The claim — that every accepted parse yields a record
with all fields including the optional date of birth — matches the
parser's construction and the spec, and the types.py field list is the
slip. -/
theorem parsed_dob_missing_from_types_model :
    parse_filename "DOE,JANE(010150)_R_020326_CXR.pdf".data
        [("R".data, "radiology".data)]
        (defaultRE [("R".data, "radiology".data)]) =
      .ok (some
        { last_name := "DOE".data
          first_name := "JANE".data
          middle_initial := none
          dob := some "2050-01-01".data
          tag_code := "R".data
          tag_full := "radiology".data
          date := "2026-02-03".data
          description := "CXR".data }) ∧
    "dob" ∉ types_ParsedFilename_fields ∧
    "date_of_birth" ∉ types_ParsedFilename_fields := by
  refine ⟨by rfl, by decide, by decide⟩

/-- Evaluation helper: `float("3600")`. -/
theorem parseFloat_3600 : parseFloat ['3', '6', '0', '0'] = some 3600 := by
  rw [show parseFloat ['3', '6', '0', '0'] = some (1 * ((3600 : ℕ) : ℚ)) from rfl]
  norm_num

/-! ### Claim C3 -/

/-- **C3** (code bug): when every response is HTTP 429 with a
`Retry-After` header that is not parseable as a number, the wrapper does
not fall back to exponential backoff and raise a `RateLimitError` after
exhausting retries, as the claim states; the unguarded
`float(retry_after)` in the app-limit check (api.py line 68) raises
`ValueError` on the very first 429, before any retry.  The try/except
three lines above shows the fallback was intended.  For contrast, the
second conjunct shows the parseable case behaving as specified:
a large `Retry-After` of 3600 waits `min(3600, 30) + jitter` three times
and then raises the rate-limit error with the app-limit flag set. -/
theorem retry_unparseable_retry_after_raises_valueError
    (jitter : Nat → ℚ) :
    requestWithRetry (fun _ => ⟨429, some "soon".data⟩) jitter =
      .valueError 0 [] ∧
    requestWithRetry (fun _ => ⟨429, some "3600".data⟩) (fun _ => 0) =
      .rateLimited (some 3600) true [30, 30, 30] := by
  refine ⟨rfl, ?_⟩
  show requestWithRetryGo _ _ [0, 1, 2, 3] [] = _
  simp only [requestWithRetryGo]
  simp [parseFloat_3600]
  norm_num [min_def, BACKOFF_MAX]

/-! ### Claims C1 and C9 (batch processor) -/

/-- **C1** (counterexample): a transport error
(`requests.ConnectionError`) raised at the Upload stage is *not* caught
inside `_process_single_file` — only `RateLimitError` is caught there
(processor.py lines 157-176) — so the exception propagates out, contrary
to the claim that connection/HTTP transport errors at any stage are
converted to a FileResult. -/
theorem upload_transport_error_escapes :
    (process_single_file "DOE,JANE_R_020326_CXR.pdf".data
      { parseRes := some
          { last_name := "DOE".data, first_name := "JANE".data
            middle_initial := none, dob := none
            tag_code := "R".data, tag_full := "radiology".data
            date := "2026-02-03".data, description := "CXR".data }
        lookupRes := .ok { status := .found, patient_id := some 42,
                           doctor_id := some 7 }
        dupRes := .ok false
        uploadRes := .error (.transport "connection refused".data) }
      false).1 = .error (.transport "connection refused".data) := rfl

/-- **C1** (amended): every per-file error at the Parse, LookupPatient or
CheckDuplicate stage — and a rate-limit error at the Upload stage — is
caught inside `_process_single_file` and converted to a FileResult; only
a transport error raised by the upload call itself escapes.  So provided
the upload outcome is not a transport error, no exception propagates. -/
theorem process_single_file_total_except_upload_transport
    (fn : List Char) (o : StageOracles) (dry : Bool)
    (h : ∀ m, o.uploadRes ≠ .error (.transport m)) :
    ∃ fr, (process_single_file fn o dry).1 = .ok fr := by
  obtain ⟨p, l, d, u⟩ := o
  simp only [process_single_file]
  cases p with
  | none => exact ⟨_, rfl⟩
  | some parsed =>
    cases l with
    | error e => cases e <;> exact ⟨_, rfl⟩
    | ok lookup =>
      obtain ⟨st, pid, did, det⟩ := lookup
      cases st
      case notFound => exact ⟨_, rfl⟩
      case multipleMatches => exact ⟨_, rfl⟩
      case found =>
        cases d with
        | error e => cases e <;> exact ⟨_, rfl⟩
        | ok dup =>
          cases dup
          · cases dry
            · cases u with
              | error e =>
                cases e with
                | rateLimit a m => exact ⟨_, rfl⟩
                | transport m => exact absurd rfl (h m)
              | ok result =>
                obtain ⟨rs, rid, rdet⟩ := result
                cases rs <;> exact ⟨_, rfl⟩
            · exact ⟨_, rfl⟩
          · exact ⟨_, rfl⟩

/-- Witness for the amended C1. -/
theorem process_single_file_total_witness :
    ∃ fr, (process_single_file "badfile.txt".data
      { parseRes := none, lookupRes := .ok { status := .notFound },
        dupRes := .ok false, uploadRes := .ok { status := .success } }
      false).1 = .ok fr :=
  process_single_file_total_except_upload_transport "badfile.txt".data
    { parseRes := none, lookupRes := .ok { status := .notFound },
      dupRes := .ok false, uploadRes := .ok { status := .success } }
    false (fun m => by simp)

/-- **C9**: (1) whenever the duplicate check reports `true`, the upload
operation is never invoked and the file is classified in the
`"duplicate"` category; (2) in dry-run mode the upload operation is never
invoked for any oracle outcome; (3) dry-run does not change whether the
duplicate check executes; (4) in dry-run, a found patient with a negative
duplicate check is reported as a success, as if uploaded. -/
theorem duplicate_skips_upload_and_dry_run_behaviour
    (fn : List Char) (o : StageOracles) (dry : Bool) :
    (o.dupRes = .ok true →
      ApiCall.upload ∉ (process_single_file fn o dry).2 ∧
      (∀ parsed lookup, o.parseRes = some parsed → o.lookupRes = .ok lookup →
        lookup.status = .found →
        ∃ fr, (process_single_file fn o dry).1 = .ok fr ∧
          fr.category = "duplicate".data)) ∧
    ApiCall.upload ∉ (process_single_file fn o true).2 ∧
    (ApiCall.dupCheck ∈ (process_single_file fn o true).2 ↔
      ApiCall.dupCheck ∈ (process_single_file fn o false).2) ∧
    (∀ parsed lookup, o.parseRes = some parsed → o.lookupRes = .ok lookup →
      lookup.status = .found → o.dupRes = .ok false →
      ∃ fr, (process_single_file fn o true).1 = .ok fr ∧
        fr.succeeded = true) := by
  obtain ⟨p, l, d, u⟩ := o
  simp only [process_single_file]
  refine ⟨fun hd => ?_, ?_, ?_, ?_⟩
  · cases hd
    cases p with
    | none => exact ⟨by simp, fun parsed lookup hp hl hs => by simp_all⟩
    | some parsed =>
      cases l with
      | error e =>
        cases e <;>
          exact ⟨by simp, fun parsed' lookup' hp hl hs => by simp_all⟩
      | ok lookup =>
        obtain ⟨st, pid, did, det⟩ := lookup
        cases st
        case notFound =>
          exact ⟨by simp, fun parsed' lookup' hp hl hs => by cases hl; simp at hs⟩
        case multipleMatches =>
          exact ⟨by simp, fun parsed' lookup' hp hl hs => by cases hl; simp at hs⟩
        case found =>
          exact ⟨by simp, fun parsed' lookup' hp hl hs => ⟨_, rfl, rfl⟩⟩
  · cases p with
    | none => simp
    | some parsed =>
      cases l with
      | error e => cases e <;> simp
      | ok lookup =>
        obtain ⟨st, pid, did, det⟩ := lookup
        cases st
        case notFound => simp
        case multipleMatches => simp
        case found =>
          cases d with
          | error e => cases e <;> simp
          | ok dup => cases dup <;> simp
  · cases p with
    | none => simp
    | some parsed =>
      cases l with
      | error e => cases e <;> simp
      | ok lookup =>
        obtain ⟨st, pid, did, det⟩ := lookup
        cases st
        case notFound => simp
        case multipleMatches => simp
        case found =>
          cases d with
          | error e => cases e <;> simp
          | ok dup =>
            cases dup
            · cases u with
              | error e => cases e <;> simp
              | ok result =>
                obtain ⟨rs, rid, rdet⟩ := result
                cases rs <;> simp
            · simp
  · intro parsed lookup hp hl hs hd
    cases hp
    cases hl
    cases hd
    obtain ⟨st, pid, did, det⟩ := lookup
    cases hs
    exact ⟨_, rfl, rfl⟩

/-- Witness for C9. -/
theorem duplicate_skips_upload_witness :
    ∃ fr, (process_single_file "A,B_R_010124_X.pdf".data
      { parseRes := some
          { last_name := "A".data, first_name := "B".data
            middle_initial := none, dob := none
            tag_code := "R".data, tag_full := "x".data
            date := "2024-01-01".data, description := "X".data }
        lookupRes := .ok { status := .found, patient_id := some 1,
                           doctor_id := none }
        dupRes := .ok true
        uploadRes := .ok { status := .success } }
      false).1 = .ok fr ∧ fr.category = "duplicate".data :=
  ((duplicate_skips_upload_and_dry_run_behaviour "A,B_R_010124_X.pdf".data
      { parseRes := some
          { last_name := "A".data, first_name := "B".data
            middle_initial := none, dob := none
            tag_code := "R".data, tag_full := "x".data
            date := "2024-01-01".data, description := "X".data }
        lookupRes := .ok { status := .found, patient_id := some 1,
                           doctor_id := none }
        dupRes := .ok true
        uploadRes := .ok { status := .success } }
      false).1 rfl).2 _ _ rfl rfl rfl

/-! ### Claim C7 -/

/-- `insertDesc x l` is a permutation of `x :: l`. -/
theorem insertDesc_perm (x : List Char) (l : List (List Char)) :
    List.Perm (insertDesc x l) (x :: l) := by
  induction l with
  | nil => exact List.Perm.refl _
  | cons y ys ih =>
    rw [insertDesc]
    split
    · exact List.Perm.refl _
    · exact (List.Perm.cons y ih).trans (List.Perm.swap x y ys)

/-- `insertDesc` preserves the descending-length ordering. -/
theorem insertDesc_pairwise (x : List Char) (l : List (List Char))
    (h : l.Pairwise fun a b => b.length ≤ a.length) :
    (insertDesc x l).Pairwise fun a b => b.length ≤ a.length := by
  induction l with
  | nil => simp [insertDesc]
  | cons y ys ih =>
    rw [insertDesc]
    rcases List.pairwise_cons.mp h with ⟨h1, h2⟩
    split
    · rename_i hxy
      refine List.pairwise_cons.mpr ⟨?_, h⟩
      intro z hz
      rcases List.mem_cons.mp hz with rfl | hz
      · exact hxy
      · exact le_trans (h1 z hz) hxy
    · rename_i hxy
      have hx : x.length ≤ y.length := le_of_not_le hxy
      refine List.pairwise_cons.mpr ⟨?_, ih h2⟩
      intro z hz
      rcases List.mem_cons.mp ((insertDesc_perm x ys).mem_iff.mp hz) with rfl | hz
      · exact hx
      · exact h1 z hz

/-- `sortKeysDesc` permutes the key list. -/
theorem sortKeysDesc_perm (l : List (List Char)) :
    List.Perm (sortKeysDesc l) l := by
  induction l with
  | nil => exact List.Perm.refl _
  | cons x xs ih =>
    exact (insertDesc_perm x (sortKeysDesc xs)).trans (List.Perm.cons x ih)

/-- `sortKeysDesc` is sorted by descending length. -/
theorem sortKeysDesc_pairwise (l : List (List Char)) :
    (sortKeysDesc l).Pairwise fun a b => b.length ≤ a.length := by
  induction l with
  | nil => simp [sortKeysDesc]
  | cons x xs ih => exact insertDesc_pairwise x (sortKeysDesc xs) ih

/-- **C7**: the `{tag}` placeholder compiles to an alternation over the
known codes; the alternation list is a permutation of the codes sorted by
descending length (so any strictly longer code precedes any shorter one,
and a longer code wins against a prefix-colliding shorter one); and
concretely, with codes `{"H", "HP"}` a filename containing literal `HP`
at the tag position parses with `tag_code = "HP"`, never `"H"`. -/
theorem tag_alternation_longest_code_first :
    (∀ mt : List (List Char × List Char),
      placeholderRE mt "tag".data =
        some (.grp .tag (.alts (sortKeysDesc (mt.map Prod.fst))))) ∧
    (∀ keys : List (List Char),
      List.Perm (sortKeysDesc keys) keys ∧
      (sortKeysDesc keys).Pairwise fun a b => b.length ≤ a.length) ∧
    compile_pattern DEFAULT_PATTERN [(['H'], ['h']), (['H', 'P'], ['h', 'p'])] =
      .ok (defaultRE [(['H'], ['h']), (['H', 'P'], ['h', 'p'])]) ∧
    parse_filename "A,B_HP_010124_X.pdf".data
        [(['H'], ['h']), (['H', 'P'], ['h', 'p'])]
        (defaultRE [(['H'], ['h']), (['H', 'P'], ['h', 'p'])]) =
      .ok (some
        { last_name := ['A'], first_name := ['B'], middle_initial := none
          dob := none, tag_code := ['H', 'P'], tag_full := ['h', 'p']
          date := "2024-01-01".data, description := ['X'] }) :=
  ⟨fun _ => rfl,
   fun keys => ⟨sortKeysDesc_perm keys, sortKeysDesc_pairwise keys⟩,
   rfl, by rfl⟩

/-! ### Claim C8 -/

/-- If every placeholder of the token list is recognized and none of them
is `description`, the compile loop succeeds with the
`found_description` flag false (whatever the fuel). -/
theorem buildPartsF_known_no_descr (mt : List (List Char × List Char)) :
    ∀ (fuel : Nat) (ps : List (List Char × List Char)) (tr : List Char),
      (∀ p ∈ ps, (placeholderRE mt p.2).isSome) →
      descriptionName ∉ ps.map Prod.snd →
      ∃ parts, buildPartsF mt fuel ps tr = .ok (parts, false) := by
  intro fuel
  induction fuel with
  | zero =>
    intro ps tr _ _
    cases ps with
    | nil => exact ⟨_, rfl⟩
    | cons p rest => exact ⟨_, rfl⟩
  | succ fuel ih =>
    intro ps tr hknown hnod
    cases ps with
    | nil => exact ⟨_, rfl⟩
    | cons hd rest =>
      obtain ⟨litB, name⟩ := hd
      have hname : (placeholderRE mt name).isSome :=
        hknown (litB, name) (List.mem_cons_self _ _)
      have hnd : name ≠ descriptionName := by
        intro hcontra
        apply hnod
        simp only [List.map_cons]
        exact hcontra ▸ List.mem_cons_self _ _
      obtain ⟨r, hr⟩ := Option.isSome_iff_exists.mp hname
      simp only [buildPartsF, if_neg hnd, hr]
      split
      · rename_i hwrap
        cases rest with
        | nil =>
          obtain ⟨parts, hp⟩ := ih [] tr.tail (by simp) (by simp)
          rw [hp]
          exact ⟨_, rfl⟩
        | cons hd2 rt =>
          obtain ⟨l2, n2⟩ := hd2
          have hk2 : ∀ p ∈ (l2.tail, n2) :: rt, (placeholderRE mt p.2).isSome := by
            intro p hp
            rcases List.mem_cons.mp hp with rfl | hp
            · exact hknown (l2, n2) (by simp)
            · exact hknown p (by simp [hp])
          have hn2 : descriptionName ∉ ((l2.tail, n2) :: rt).map Prod.snd := by
            intro hmem
            apply hnod
            simp only [List.map_cons] at hmem ⊢
            exact List.mem_cons_of_mem _ hmem
          obtain ⟨parts, hp⟩ := ih _ tr hk2 hn2
          rw [hp]
          exact ⟨_, rfl⟩
      · have hk2 : ∀ p ∈ rest, (placeholderRE mt p.2).isSome :=
          fun p hp => hknown p (List.mem_cons_of_mem _ hp)
        have hn2 : descriptionName ∉ rest.map Prod.snd := by
          intro hmem
          apply hnod
          simp only [List.map_cons]
          exact List.mem_cons_of_mem _ hmem
        obtain ⟨parts, hp⟩ := ih rest tr hk2 hn2
        rw [hp]
        exact ⟨_, rfl⟩

/-- **C8** (counterexample): the template `"{bogus}"` contains no
`{description}` placeholder, yet compilation fails with
`UnknownPlaceholder "bogus"` (raised inside the loop, parser.py line 78),
not with `MissingDescriptionPlaceholder`. -/
theorem compile_unknown_beats_missing_description :
    descriptionName ∉ (tokenize "{bogus}".data).1.map Prod.snd ∧
    compile_pattern "{bogus}".data [] =
      .error (.unknownPlaceholder "bogus".data) ∧
    compile_pattern "{bogus}".data [] ≠ .error .missingDescription :=
  ⟨by decide, rfl, by decide⟩

/-- **C8** (amended): for every template that does not contain the
`{description}` placeholder *and whose placeholders are all recognized*,
compilation fails with the `MissingDescriptionPlaceholder` error. -/
theorem compile_missing_description (pattern : List Char)
    (mt : List (List Char × List Char))
    (hknown : ∀ p ∈ (tokenize pattern).1, (placeholderRE mt p.2).isSome)
    (hnod : descriptionName ∉ (tokenize pattern).1.map Prod.snd) :
    compile_pattern pattern mt = .error .missingDescription := by
  unfold compile_pattern buildParts
  obtain ⟨parts, hp⟩ :=
    buildPartsF_known_no_descr mt (tokenize pattern).1.length
      (tokenize pattern).1 (tokenize pattern).2 hknown hnod
  rw [hp]
  rfl

/-- Witness for the amended C8. -/
theorem compile_missing_description_witness :
    compile_pattern "{name}_{tag}".data [] = .error .missingDescription :=
  compile_missing_description "{name}_{tag}".data [] (by decide) (by decide)

/-! ### Claim C5 -/

/-- One narrowing step keeps a subset of its input. -/
theorem refineStep_subset (c : Prop) [Decidable c] (s f : List Candidate)
    (hf : f ⊆ s) :
    (if c then (if f ≠ [] then f else s) else s) ⊆ s := by
  split_ifs with h1 h2
  · exact hf
  · exact fun a ha => ha
  · exact fun a ha => ha

/-- One narrowing step never empties a non-empty list. -/
theorem refineStep_ne_nil (c : Prop) [Decidable c] (s f : List Candidate)
    (hs : s ≠ []) :
    (if c then (if f ≠ [] then f else s) else s) ≠ [] := by
  split_ifs with h1 h2
  · exact h2
  · exact hs
  · exact hs

/-- The final `len == 0` / `len > 1` / single classification of
`find_patient` agrees with the match-shaped `classifySpec`. -/
theorem classify_eq (N : List Candidate) :
    (if N.length = 0 then ({ status := .notFound } : PatientLookupResult)
     else if N.length > 1 then
       { status := .multipleMatches
         detail := some (List.intercalate "; ".data (N.map candidateLine)) }
     else
       match N with
       | p :: _ => { status := .found, patient_id := some p.id,
                     doctor_id := p.doctor }
       | [] => { status := .notFound }) = classifySpec N := by
  match N with
  | [] => rfl
  | [p] => rfl
  | p :: q :: t => simp [classifySpec]

/-- **C5**: `find_patient`'s handling of the candidate list returned by
the server coincides with the specification's description — the
middle-initial prefix filter, the exact case-insensitive name filter,
and the exact date-of-birth filter, each applied in that order, only
while more than one candidate remains, and kept only when at least one
result survives; the final list is classified as NotFound when empty,
Found (with patient and doctor ids) when a single candidate remains, and
MultipleMatches carrying the name/DOB/id summary otherwise.  Moreover the
narrowing only ever keeps a subset of the server's candidates, never
empties a non-empty candidate list, and is the identity when at most one
candidate was returned. -/
theorem find_patient_narrowing_spec (results : List Candidate)
    (last_name first_name : List Char) (middle_initial : Option (List Char))
    (dob : Option (List Char)) :
    find_patient results last_name first_name middle_initial dob =
      classifySpec (narrowSpec results last_name first_name middle_initial dob) ∧
    narrowSpec results last_name first_name middle_initial dob ⊆ results ∧
    (results ≠ [] →
      narrowSpec results last_name first_name middle_initial dob ≠ []) ∧
    (results.length ≤ 1 →
      narrowSpec results last_name first_name middle_initial dob = results) := by
  have hfsub : ∀ (p : Candidate → Bool) (l : List Candidate),
      l.filter p ⊆ l := fun p l a ha => List.mem_of_mem_filter ha
  refine ⟨?_, ?_, ?_, ?_⟩
  · simp only [find_patient, narrowSpec]
    rw [show ∀ f s : List Candidate,
        (if f.length ≥ 1 then f else s) = (if f ≠ [] then f else s) by
      intro f s
      cases f <;> simp]
    exact classify_eq _
  · simp only [narrowSpec]
    exact (refineStep_subset _ _ _ (hfsub _ _)).trans
      ((refineStep_subset _ _ _ (hfsub _ _)).trans
        (refineStep_subset _ _ _ (hfsub _ _)))
  · intro hs
    simp only [narrowSpec]
    exact refineStep_ne_nil _ _ _ (refineStep_ne_nil _ _ _
      (refineStep_ne_nil _ _ _ hs))
  · intro hlen
    have h1 : ¬ results.length > 1 := by omega
    simp only [narrowSpec, h1, and_false, if_false, if_neg h1]

/-- Witness for C5. -/
theorem find_patient_narrowing_witness :
    narrowSpec [] "DOE".data "JANE".data none none = [] ∧
    (narrowSpec
        [{ id := 42, doctor := some 7, first_name := "JANE".data,
           last_name := "DOE".data, middle_name := none,
           date_of_birth := none }]
        "DOE".data "JANE".data none none ≠ []) :=
  ⟨(find_patient_narrowing_spec [] "DOE".data "JANE".data none none).2.2.2
      (by decide),
   (find_patient_narrowing_spec
      [{ id := 42, doctor := some 7, first_name := "JANE".data,
         last_name := "DOE".data, middle_name := none,
         date_of_birth := none }]
      "DOE".data "JANE".data none none).2.2.1 (by simp)⟩

/-! ### Claim C10 -/

/-- Setting a group makes it present. -/
theorem getG_setG_self (g : Caps) (n : GName) (v : List Char) :
    getG (setG g n v) n = some v := by
  cases n <;> rfl

/-- Setting a group never erases another. -/
theorem getG_setG_mono (g : Caps) (m n : GName) (v : List Char)
    (h : (getG g n).isSome) : (getG (setG g m v) n).isSome := by
  cases m <;> cases n <;> simp_all [setG, getG]

/-- A match never erases a capture that was already present. -/
theorem mmatch_mono (re : RE) : ∀ (s : List Char) (g : Caps)
    (p : Caps × List Char), p ∈ mmatch re s g →
    ∀ n, (getG g n).isSome → (getG p.1 n).isSome := by
  induction re with
  | lit l =>
    intro s g p hp n h
    rw [mmatch] at hp
    split at hp
    · rw [List.mem_singleton] at hp
      subst hp
      exact h
    · cases hp
  | cls c =>
    intro s g p hp n h
    match s with
    | [] => cases hp
    | ch :: rest =>
      rw [mmatch] at hp
      split at hp
      · rw [List.mem_singleton] at hp
        subst hp
        exact h
      · cases hp
  | plus greedy c =>
    intro s g p hp n h
    rw [mmatch] at hp
    obtain ⟨k, _, hk⟩ := List.mem_map.mp hp
    subst hk
    exact h
  | star c =>
    intro s g p hp n h
    rw [mmatch] at hp
    obtain ⟨k, _, hk⟩ := List.mem_map.mp hp
    subst hk
    exact h
  | rep c m =>
    intro s g p hp n h
    rw [mmatch] at hp
    split at hp
    · rw [List.mem_singleton] at hp
      subst hp
      exact h
    · cases hp
  | seq a b iha ihb =>
    intro s g p hp n h
    rw [mmatch] at hp
    obtain ⟨q, hq, hpb⟩ := List.mem_flatMap.mp hp
    exact ihb _ _ _ hpb n (iha _ _ _ hq n h)
  | alts ls =>
    intro s g p hp n h
    rw [mmatch] at hp
    obtain ⟨l, _, hl⟩ := List.mem_flatMap.mp hp
    split at hl
    · rw [List.mem_singleton] at hl
      subst hl
      exact h
    · cases hl
  | opt r ihr =>
    intro s g p hp n h
    rw [mmatch] at hp
    rcases List.mem_append.mp hp with hp | hp
    · exact ihr _ _ _ hp n h
    · rw [List.mem_singleton] at hp
      subst hp
      exact h
  | grp m r ihr =>
    intro s g p hp n h
    rw [mmatch] at hp
    obtain ⟨q, hq, hqe⟩ := List.mem_map.mp hp
    subst hqe
    exact getG_setG_mono _ _ _ _ (ihr _ _ _ hq n h)

/-- Any successful match assigns every mandatory group. -/
theorem mmatch_mandatory (re : RE) : ∀ (s : List Char) (g : Caps)
    (p : Caps × List Char), p ∈ mmatch re s g →
    ∀ n, mandatory re n → (getG p.1 n).isSome := by
  induction re with
  | lit l => intro s g p hp n hm; simp [mandatory] at hm
  | cls c => intro s g p hp n hm; simp [mandatory] at hm
  | plus greedy c => intro s g p hp n hm; simp [mandatory] at hm
  | star c => intro s g p hp n hm; simp [mandatory] at hm
  | rep c m => intro s g p hp n hm; simp [mandatory] at hm
  | alts ls => intro s g p hp n hm; simp [mandatory] at hm
  | opt r ihr => intro s g p hp n hm; simp [mandatory] at hm
  | seq a b iha ihb =>
    intro s g p hp n hm
    rw [mmatch] at hp
    obtain ⟨q, hq, hpb⟩ := List.mem_flatMap.mp hp
    rw [mandatory] at hm
    rcases Bool.or_eq_true_iff.mp hm with hm | hm
    · exact mmatch_mono b _ _ _ hpb n (iha _ _ _ hq n hm)
    · exact ihb _ _ _ hpb n hm
  | grp m r ihr =>
    intro s g p hp n hm
    rw [mmatch] at hp
    obtain ⟨q, hq, hqe⟩ := List.mem_map.mp hp
    subst hqe
    rw [mandatory] at hm
    rcases Bool.or_eq_true_iff.mp hm with hm | hm
    · rw [show m = n from by simpa using hm]
      simp [getG_setG_self]
    · exact getG_setG_mono _ _ _ _ (ihr _ _ _ hq n hm)

/-- `pattern_re.match` assigns every mandatory group of the pattern. -/
theorem pymatch_mandatory (re : RE) (s : List Char) (caps : Caps)
    (h : pymatch re s = some caps) (n : GName) (hm : mandatory re n) :
    (getG caps n).isSome := by
  unfold pymatch at h
  obtain ⟨p, hfind, hfst⟩ := Option.map_eq_some'.mp h
  subst hfst
  exact mmatch_mandatory re s {} p (List.mem_of_find?_eq_some hfind) n hm

/-- If every group `parse_filename` reads with a `""` default is mandatory
whenever it is defined, `parse_filename` never raises. -/
theorem parse_filename_no_exn (re : RE) (fn : List Char)
    (mt : List (List Char × List Char))
    (h : ∀ n ∈ targetGroups, definedGroups re n → mandatory re n) :
    ∃ res, parse_filename fn mt re = .ok res := by
  unfold parse_filename
  cases hm : pymatch re (stem fn) with
  | none => exact ⟨_, rfl⟩
  | some caps =>
    dsimp only
    have hsome : ∀ n ∈ targetGroups, (pyGet re caps n (some [])).isSome := by
      intro n hn
      unfold pyGet
      split
      · rename_i hdefn
        exact pymatch_mandatory re (stem fn) caps hm n (h n hn hdefn)
      · simp
    obtain ⟨tv, htv⟩ :=
      Option.isSome_iff_exists.mp (hsome .tag (by simp [targetGroups]))
    rw [htv]
    obtain ⟨dv, hdv⟩ :=
      Option.isSome_iff_exists.mp (hsome .date (by simp [targetGroups]))
    obtain ⟨lv, hlv⟩ :=
      Option.isSome_iff_exists.mp (hsome .lastName (by simp [targetGroups]))
    obtain ⟨fv, hfv⟩ :=
      Option.isSome_iff_exists.mp (hsome .firstName (by simp [targetGroups]))
    obtain ⟨dsv, hdsv⟩ :=
      Option.isSome_iff_exists.mp (hsome .descr (by simp [targetGroups]))
    dsimp only
    cases lookupAssoc mt (pyUpper tv) with
    | none => exact ⟨_, rfl⟩
    | some full =>
      rw [hdv]
      dsimp only
      cases parse_date_mmddyy dv with
      | none => exact ⟨_, rfl⟩
      | some dd =>
        rw [hlv]
        dsimp only
        rw [hfv]
        dsimp only
        rw [hdsv]
        dsimp only
        split
        · exact ⟨_, rfl⟩
        · exact ⟨_, rfl⟩

/-- `definedGroups` over a part list. -/
theorem definedGroups_seqList (l : List RE) (n : GName) :
    definedGroups (seqList l) n = l.any fun r => definedGroups r n := by
  induction l with
  | nil => rfl
  | cons r rs ih =>
    show definedGroups (RE.seq r (seqList rs)) n = _
    rw [definedGroups, ih]
    simp

/-- `mandatory` over a part list. -/
theorem mandatory_seqList (l : List RE) (n : GName) :
    mandatory (seqList l) n = l.any fun r => mandatory r n := by
  induction l with
  | nil => rfl
  | cons r rs ih =>
    show mandatory (RE.seq r (seqList rs)) n = _
    rw [mandatory, ih]
    simp

/-- Every group of `targetGroups` defined by a recognized placeholder
regex is mandatory in it. -/
theorem placeholderRE_target_mandatory (mt : List (List Char × List Char))
    (name : List Char) (r : RE) (h : placeholderRE mt name = some r)
    (n : GName) (hn : n ∈ targetGroups) (hd : definedGroups r n = true) :
    mandatory r n = true := by
  unfold placeholderRE at h
  split_ifs at h
  · injection h with h
    subst h
    exact (by decide : ∀ n ∈ targetGroups, definedGroups nameRE n = true →
      mandatory nameRE n = true) n hn hd
  · injection h with h
    subst h
    simp only [definedGroups, mandatory, Bool.or_false] at hd ⊢
    exact hd
  · injection h with h
    subst h
    simp only [definedGroups, mandatory, Bool.or_false] at hd ⊢
    exact hd
  · injection h with h
    subst h
    simp only [definedGroups, mandatory, Bool.or_false] at hd ⊢
    exact hd
  · injection h with h
    subst h
    simp only [definedGroups, mandatory, Bool.or_false] at hd ⊢
    exact hd
  · injection h with h
    subst h
    simp only [definedGroups, mandatory, Bool.or_false] at hd ⊢
    exact hd
  · injection h with h
    subst h
    simp only [definedGroups, mandatory, Bool.or_false] at hd ⊢
    exact hd

/-- A wrapped placeholder that is allowed to be wrapped (its name is not
in `sixNames`) only defines the `middleInitial` or `dob` group. -/
theorem placeholderRE_wrapped_groups (mt : List (List Char × List Char))
    (name : List Char) (r : RE) (h : placeholderRE mt name = some r)
    (hname : name ∉ sixNames) (n : GName) (hd : definedGroups r n = true) :
    n = .middleInitial ∨ n = .dob := by
  unfold placeholderRE at h
  split_ifs at h with h1 h2 h3 h4 h5 h6 h7
  · subst h1
    exact absurd (by decide) hname
  · subst h2
    exact absurd (by decide) hname
  · subst h3
    exact absurd (by decide) hname
  · injection h with h
    subst h
    simp only [definedGroups, Bool.or_false] at hd
    exact Or.inl (show GName.middleInitial = n by simpa using hd).symm
  · subst h5
    exact absurd (by decide) hname
  · injection h with h
    subst h
    simp only [definedGroups, Bool.or_false] at hd
    exact Or.inr (show GName.dob = n by simpa using hd).symm
  · subst h7
    exact absurd (by decide) hname

/-- `middleInitial` and `dob` are not read with a `""` default. -/
theorem mi_dob_not_target (n : GName)
    (h : n = GName.middleInitial ∨ n = GName.dob) : n ∉ targetGroups := by
  rcases h with rfl | rfl <;> decide

/-- The placeholder step of the compile loop only returns parts whose
target groups are mandatory. -/
theorem phStep_target_mandatory (mt : List (List Char × List Char))
    (name : List Char) (r : RE) (isD : Bool)
    (hph : (if name = descriptionName then
        (Except.ok (descrRE, true) : Except CompileErr (RE × Bool))
      else match placeholderRE mt name with
        | some r0 => .ok (r0, false)
        | none => .error (.unknownPlaceholder name)) = .ok (r, isD)) :
    ∀ n ∈ targetGroups, definedGroups r n = true → mandatory r n = true := by
  intro n hn hd
  split at hph
  · injection hph with hph
    injection hph with hph hph2
    subst hph
    exact (by decide : ∀ n ∈ targetGroups, definedGroups descrRE n = true →
      mandatory descrRE n = true) n hn hd
  · cases hpr : placeholderRE mt name with
    | none => rw [hpr] at hph; cases hph
    | some r2 =>
      rw [hpr] at hph
      injection hph with hph
      injection hph with hph hph2
      subst hph
      exact placeholderRE_target_mandatory mt name r2 hpr n hn hd

/-- Compile loop invariant: with every `sixNames` placeholder unwrapped,
each target group defined by the produced parts is mandatory in them. -/
theorem buildPartsF_mandatory (mt : List (List Char × List Char)) :
    ∀ (fuel : Nat) (ps : List (List Char × List Char)) (tr : List Char)
      (parts : List RE) (found : Bool),
      buildPartsF mt fuel ps tr = .ok (parts, found) →
      noWrapF sixNames fuel ps tr = true →
      ∀ n ∈ targetGroups, definedGroups (seqList parts) n = true →
        mandatory (seqList parts) n = true := by
  intro fuel
  induction fuel with
  | zero =>
    intro ps tr parts found hb hw n hn hd
    cases ps with
    | nil =>
      rw [buildPartsF] at hb
      injection hb with hb
      injection hb with hb hb2
      subst hb
      split at hd <;>
        simp_all [definedGroups_seqList, definedGroups]
    | cons p rest =>
      rw [buildPartsF] at hb
      injection hb with hb
      injection hb with hb hb2
      subst hb
      simp_all [definedGroups_seqList]
  | succ fuel ih =>
    intro ps tr parts found hb hw n hn hd
    cases ps with
    | nil =>
      rw [buildPartsF] at hb
      injection hb with hb
      injection hb with hb hb2
      subst hb
      split at hd <;>
        simp_all [definedGroups_seqList, definedGroups]
    | cons hd0 rest =>
      obtain ⟨litB, name⟩ := hd0
      simp only [buildPartsF] at hb
      simp only [noWrapF] at hw
      by_cases hcond : litB.getLast? = some '(' ∧
          (match rest with
            | (l2, _) :: _ => l2
            | [] => tr).head? = some ')'
      · rw [if_pos hcond] at hb hw
        rw [Bool.and_eq_true] at hw
        obtain ⟨hnot6, hwrest⟩ := hw
        have hname6 : name ∉ sixNames := of_decide_eq_true hnot6
        have hnd : name ≠ descriptionName := by
          intro hcontra
          subst hcontra
          exact hname6 (by decide)
        rw [if_neg hnd] at hb
        cases hph : placeholderRE mt name with
        | none => rw [hph] at hb; cases hb
        | some r =>
          rw [hph] at hb
          dsimp only at hb
          cases rest with
          | nil =>
            cases hrec : buildPartsF mt fuel [] tr.tail with
            | error e => rw [hrec] at hb; cases hb
            | ok pr =>
              obtain ⟨parts', found'⟩ := pr
              rw [hrec] at hb
              dsimp only at hb
              injection hb with hb
              injection hb with hb1 hb2
              subst hb1
              rw [definedGroups_seqList] at hd
              rw [mandatory_seqList]
              simp only [List.any_append, List.any_cons,
                Bool.or_eq_true] at hd
              rcases hd with hd | hd | hd
              · exfalso
                revert hd
                split <;> simp [definedGroups]
              · exfalso
                simp only [RE.opt, definedGroups, seqList, List.foldr,
                  Bool.or_false, Bool.false_or] at hd
                exact absurd hn (mi_dob_not_target n
                  (placeholderRE_wrapped_groups mt name r hph hname6 n
                    (by simpa using hd)))
              · have hm := ih [] tr.tail parts' found' hrec
                  (by cases fuel <;> rfl) n hn
                  (by rw [definedGroups_seqList]; exact hd)
                rw [mandatory_seqList] at hm
                simp [List.any_append, hm]
          | cons h2 rt =>
            obtain ⟨l2, n2⟩ := h2
            cases hrec : buildPartsF mt fuel ((l2.tail, n2) :: rt) tr with
            | error e => rw [hrec] at hb; cases hb
            | ok pr =>
              obtain ⟨parts', found'⟩ := pr
              rw [hrec] at hb
              dsimp only at hb
              injection hb with hb
              injection hb with hb1 hb2
              subst hb1
              rw [definedGroups_seqList] at hd
              rw [mandatory_seqList]
              simp only [List.any_append, List.any_cons,
                Bool.or_eq_true] at hd
              rcases hd with hd | hd | hd
              · exfalso
                revert hd
                split <;> simp [definedGroups]
              · exfalso
                simp only [RE.opt, definedGroups, seqList, List.foldr,
                  Bool.or_false, Bool.false_or] at hd
                exact absurd hn (mi_dob_not_target n
                  (placeholderRE_wrapped_groups mt name r hph hname6 n
                    (by simpa using hd)))
              · have hm := ih _ tr parts' found' hrec hwrest n hn
                  (by rw [definedGroups_seqList]; exact hd)
                rw [mandatory_seqList] at hm
                simp [List.any_append, hm]
      · rw [if_neg hcond] at hb hw
        cases hph : (if name = descriptionName then
            (Except.ok (descrRE, true) : Except CompileErr (RE × Bool))
          else match placeholderRE mt name with
            | some r0 => .ok (r0, false)
            | none => .error (.unknownPlaceholder name)) with
        | error e => rw [hph] at hb; cases hb
        | ok pr =>
          obtain ⟨r, isD⟩ := pr
          rw [hph] at hb
          dsimp only at hb
          cases hrec : buildPartsF mt fuel rest tr with
          | error e => rw [hrec] at hb; cases hb
          | ok pr2 =>
            obtain ⟨parts', found'⟩ := pr2
            rw [hrec] at hb
            dsimp only at hb
            injection hb with hb
            injection hb with hb1 hb2
            subst hb1
            rw [definedGroups_seqList] at hd
            rw [mandatory_seqList]
            simp only [List.any_append, List.any_cons,
              Bool.or_eq_true] at hd
            rcases hd with hd | hd | hd
            · exfalso
              revert hd
              split <;> simp [definedGroups]
            · have hm := phStep_target_mandatory mt name r isD hph n hn hd
              simp [List.any_append, hm]
            · have hm := ih rest tr parts' found' hrec hw n hn
                (by rw [definedGroups_seqList]; exact hd)
              rw [mandatory_seqList] at hm
              simp [List.any_append, hm]

/-- **C10** (amended): for every template that compiles and in which none
of the `{tag}`, `{date}`, `{description}`, `{name}`, `{last_name}`,
`{first_name}` placeholders is wrapped in an optional parenthesis pair,
`parse_filename` is total on every filename and tag map: it returns
`None` or a `ParsedFilename` and never raises (absent optional-wrapped
`{dob}` and `{middle_initial}` groups are handled as `None`). -/
theorem parse_filename_total_no_wrapped_required_groups
    (pattern : List Char) (mt : List (List Char × List Char)) (re : RE)
    (hc : compile_pattern pattern mt = .ok re)
    (hw : noWrapNameGroups pattern = true) (fn : List Char) :
    ∃ res, parse_filename fn mt re = .ok res := by
  apply parse_filename_no_exn
  intro n hn hd
  unfold compile_pattern at hc
  cases hb : buildParts mt (tokenize pattern).1 (tokenize pattern).2 with
  | error e => rw [hb] at hc; cases hc
  | ok pr =>
    obtain ⟨parts, found⟩ := pr
    rw [hb] at hc
    cases found
    · simp at hc
    · simp only [if_pos] at hc
      injection hc with hc
      subst hc
      exact buildPartsF_mandatory mt (tokenize pattern).1.length
        (tokenize pattern).1 (tokenize pattern).2 parts true hb hw n hn hd

/-- Witness for the amended C10. -/
theorem parse_filename_total_witness :
    ∃ res, parse_filename "badfile.pdf".data [(['R'], ['x'])]
      (defaultRE [(['R'], ['x'])]) = .ok res :=
  parse_filename_total_no_wrapped_required_groups DEFAULT_PATTERN
    [(['R'], ['x'])] (defaultRE [(['R'], ['x'])]) (by rfl) (by decide)
    "badfile.pdf".data

/-- **C10** (counterexample): for the template
`"({name})_{tag}_{date}_{description}"` — which satisfies the claim's
hypothesis, since none of `{tag}`, `{date}`, `{description}` is wrapped —
compilation succeeds but parsing the matching filename `"_R_010124_X"`
(optional name group absent) raises an `AttributeError`
(`None.strip()` at parser.py line 122), so `parse_filename` is not
exception-free under the claim's hypothesis. -/
theorem wrapped_name_group_raises :
    noWrapTagDateDescr "({name})_{tag}_{date}_{description}".data = true ∧
    (match compile_pattern "({name})_{tag}_{date}_{description}".data
        [(['R'], ['x'])] with
      | .ok r => parse_filename "_R_010124_X".data [(['R'], ['x'])] r
      | .error _ => .ok none) = .error .attributeError :=
  ⟨by decide, by rfl⟩

/-! ### Round-trip infrastructure (claim C4)

`mmatch` returns all matches in preference order and `pymatch` reports
the first end-anchored one, so the round-trip proof shows the *first*
result of the compiled default pattern on a substituted filename is the
intended full match: at greedy choice points the intended option is
explored first; at lazy choice points every earlier option is shown to
kill the continuation. -/

theorem List.flatMap_first {α β : Type} (l₁ l₂ : List α) (a : α)
    (f : α → List β) (y : β) (t : List β)
    (h₁ : ∀ b ∈ l₁, f b = []) (h₂ : f a = y :: t) :
    ∃ junk, (l₁ ++ a :: l₂).flatMap f = y :: junk := by
  induction l₁ with
  | nil => exact ⟨t ++ l₂.flatMap f, by simp [h₂]⟩
  | cons b bs ih =>
    obtain ⟨junk, hj⟩ := ih fun x hx => h₁ x (List.mem_cons_of_mem _ hx)
    exact ⟨junk, by simp [h₁ b (List.mem_cons_self _ _), hj]⟩

theorem mmatch_seqList (l : List RE) (s : List Char) (g : Caps) :
    mmatch (seqList l) s g = mrun l s g := by
  induction l generalizing s g with
  | nil => simp [seqList, mmatch, mrun, List.isPrefixOf]
  | cons r rs ih =>
    show mmatch (RE.seq r (seqList rs)) s g = _
    rw [mmatch, mrun]
    congr 1
    funext p
    exact ih p.2 p.1

theorem mrun_append (l₁ l₂ : List RE) (s : List Char) (g : Caps) :
    mrun (l₁ ++ l₂) s g =
      (mrun l₁ s g).flatMap fun p => mrun l₂ p.2 p.1 := by
  induction l₁ generalizing s g with
  | nil => simp [mrun]
  | cons r l₁ ih =>
    show mrun (r :: (l₁ ++ l₂)) s g = _
    rw [mrun, mrun]
    rw [List.flatMap_assoc]
    congr 1
    funext p
    exact ih p.2 p.1

theorem mrun_seqList_cons (l rs : List RE) (s : List Char) (g : Caps) :
    mrun (seqList l :: rs) s g = mrun (l ++ rs) s g := by
  rw [mrun, mmatch_seqList, mrun_append]

/-- Connector: a first result of the head atom followed by a first result
of the continuation is a first result of the sequence. -/
theorem mrun_cons_first (r : RE) (rs : List RE) (s : List Char) (g : Caps)
    (q : Caps × List Char) (y : Caps × List Char)
    (hr : ∃ ts, mmatch r s g = q :: ts)
    (hcont : ∃ t, mrun rs q.2 q.1 = y :: t) :
    ∃ junk, mrun (r :: rs) s g = y :: junk := by
  obtain ⟨ts, hts⟩ := hr
  obtain ⟨t, ht⟩ := hcont
  exact ⟨t ++ ts.flatMap fun p => mrun rs p.2 p.1, by
    rw [mrun, hts]
    simp [ht]⟩

theorem mrun_cons_dead (r : RE) (rs : List RE) (s : List Char) (g : Caps)
    (h : mmatch r s g = []) : mrun (r :: rs) s g = [] := by
  rw [mrun, h]
  rfl

/-! Atom-level first results and deaths -/

theorem nil_isPrefixOf (l : List Char) : List.isPrefixOf [] l = true := by
  cases l <;> rfl

theorem isPrefixOf_append_self (l u : List Char) :
    l.isPrefixOf (l ++ u) = true := by
  induction l with
  | nil => exact nil_isPrefixOf u
  | cons a as ih => simp [List.isPrefixOf, ih]

theorem take_append_sub (v u : List Char) :
    (v ++ u).take ((v ++ u).length - u.length) = v := by
  rw [List.length_append, Nat.add_sub_cancel, List.take_left]

theorem drop_append_len (v u : List Char) : (v ++ u).drop v.length = u :=
  List.drop_left v u

theorem mmatch_lit_first (l u : List Char) (g : Caps) :
    ∃ ts, mmatch (RE.lit l) (l ++ u) g = (g, u) :: ts := by
  refine ⟨[], ?_⟩
  rw [mmatch, if_pos]
  · rw [drop_append_len]
  · exact isPrefixOf_append_self l u

theorem isPrefixOf_cons_ne (a b : Char) (l s : List Char) (h : ¬ a = b) :
    (a :: l).isPrefixOf (b :: s) = false := by
  simp [List.isPrefixOf, h]

theorem mmatch_lit_dead (l s : List Char) (g : Caps)
    (h : l.isPrefixOf s = false) : mmatch (RE.lit l) s g = [] := by
  rw [mmatch, if_neg]
  simp [h]

theorem runLen_all (c : CharClass) (v : List Char)
    (h : ∀ ch ∈ v, cmatch c ch = true) : runLen c v = v.length := by
  induction v with
  | nil => rfl
  | cons a as ih =>
    rw [runLen, if_pos (h a (List.mem_cons_self _ _)),
      ih fun ch hc => h ch (List.mem_cons_of_mem _ hc)]
    rfl

theorem runLen_zero_of_head (c : CharClass) (ch : Char) (s : List Char)
    (h : cmatch c ch = false) : runLen c (ch :: s) = 0 := by
  rw [runLen, if_neg]
  simp [h]

theorem runLen_append_exact (c : CharClass) (v u : List Char)
    (hv : ∀ ch ∈ v, cmatch c ch = true) (hu : runLen c u = 0) :
    runLen c (v ++ u) = v.length := by
  induction v with
  | nil => simpa using hu
  | cons a as ih =>
    show runLen c (a :: (as ++ u)) = _
    rw [runLen, if_pos (hv a (List.mem_cons_self _ _)),
      ih fun ch hc => hv ch (List.mem_cons_of_mem _ hc)]
    rfl

theorem runLen_append_ge (c : CharClass) (v u : List Char)
    (hv : ∀ ch ∈ v, cmatch c ch = true) :
    v.length ≤ runLen c (v ++ u) := by
  induction v with
  | nil => simp
  | cons a as ih =>
    rw [List.cons_append, runLen, if_pos (hv a (List.mem_cons_self _ _))]
    have := ih fun ch hc => hv ch (List.mem_cons_of_mem _ hc)
    simp only [List.length_cons]
    omega

theorem mmatch_plusGreedy_first (c : CharClass) (v u : List Char) (g : Caps)
    (hne : v ≠ []) (hrun : runLen c (v ++ u) = v.length) :
    ∃ ts, mmatch (RE.plus true c) (v ++ u) g = (g, u) :: ts := by
  rw [mmatch]
  rw [hrun]
  obtain ⟨n, hn⟩ : ∃ n, v.length = n + 1 := by
    cases v with
    | nil => exact absurd rfl hne
    | cons a as => exact ⟨as.length, rfl⟩
  rw [if_pos rfl, hn, descFrom, List.map_cons, ← hn, drop_append_len]
  exact ⟨_, rfl⟩

theorem mmatch_star_zero (c : CharClass) (s : List Char) (g : Caps)
    (h : runLen c s = 0) : mmatch (RE.star c) s g = [(g, s)] := by
  rw [mmatch, h]
  rfl

theorem mmatch_grp_rep_first (n : GName) (c : CharClass) (k : Nat)
    (v u : List Char) (g : Caps) (hlen : v.length = k)
    (hv : ∀ ch ∈ v, cmatch c ch = true) :
    ∃ ts, mmatch (RE.grp n (RE.rep c k)) (v ++ u) g = (setG g n v, u) :: ts := by
  refine ⟨[], ?_⟩
  rw [mmatch, mmatch, if_pos]
  · rw [← hlen, drop_append_len, List.map_cons, List.map_nil,
      take_append_sub]
  · rw [← hlen]
    exact runLen_append_ge c v u hv

theorem mmatch_grp_plusGreedy_first (n : GName) (c : CharClass)
    (v u : List Char) (g : Caps) (hne : v ≠ [])
    (hrun : runLen c (v ++ u) = v.length) :
    ∃ ts, mmatch (RE.grp n (RE.plus true c)) (v ++ u) g =
      (setG g n v, u) :: ts := by
  obtain ⟨ts, hts⟩ := mmatch_plusGreedy_first c v u g hne hrun
  exact ⟨ts.map fun p =>
      (setG p.1 n ((v ++ u).take ((v ++ u).length - p.2.length)), p.2), by
    rw [mmatch, hts, List.map_cons, take_append_sub]⟩

theorem mmatch_grp_alts_first (n : GName) (pre post : List (List Char))
    (T u : List Char) (g : Caps)
    (hpre : ∀ c ∈ pre, c.isPrefixOf (T ++ u) = false) :
    ∃ ts, mmatch (RE.grp n (RE.alts (pre ++ T :: post))) (T ++ u) g =
      (setG g n T, u) :: ts := by
  have halts : ∃ ts, mmatch (RE.alts (pre ++ T :: post)) (T ++ u) g =
      (g, u) :: ts := by
    rw [mmatch]
    refine List.flatMap_first pre post T _ (g, u) [] ?_ ?_
    · intro b hb
      rw [hpre b hb]
      rfl
    · rw [isPrefixOf_append_self]
      simp [drop_append_len]
  obtain ⟨ts, hts⟩ := halts
  exact ⟨ts.map fun p =>
      (setG p.1 n ((T ++ u).take ((T ++ u).length - p.2.length)), p.2), by
    rw [mmatch, hts, List.map_cons, take_append_sub]⟩

/-! Lazy `+?` under a group: the first surviving option -/

theorem ascRange_append (s a b : Nat) :
    ascRange s (a + b) = ascRange s a ++ ascRange (s + a) b := by
  induction a generalizing s with
  | zero => simp [ascRange]
  | succ a ih =>
    have : s + (a + 1) = (s + 1) + a := by omega
    rw [show a + 1 + b = (a + b) + 1 from by omega, ascRange, ascRange,
      ih (s + 1), this]
    rfl

theorem mem_ascRange (k s m : Nat) (h : k ∈ ascRange s m) :
    s ≤ k ∧ k < s + m := by
  induction m generalizing s with
  | zero => cases h
  | succ m ih =>
    rw [ascRange] at h
    rcases List.mem_cons.mp h with rfl | h
    · omega
    · have := ih (s + 1) h
      omega

/-- The lazy first-name option: all shorter splits kill the continuation,
so the first surviving result captures exactly `F`. -/
theorem mrun_grp_plusLazy_first (n : GName) (c : CharClass) (rs : List RE)
    (F u : List Char) (g : Caps) (y : Caps × List Char)
    (hne : F ≠ []) (hFc : ∀ ch ∈ F, cmatch c ch = true)
    (hdead : ∀ k, 1 ≤ k → k < F.length →
      mrun rs (F.drop k ++ u) (setG g n (F.take k)) = [])
    (hcont : ∃ t, mrun rs u (setG g n F) = y :: t) :
    ∃ junk, mrun (RE.grp n (RE.plus false c) :: rs) (F ++ u) g =
      y :: junk := by
  obtain ⟨t, ht⟩ := hcont
  have hK : F.length ≤ runLen c (F ++ u) := runLen_append_ge c F u hFc
  have hFlen : 1 ≤ F.length := by
    cases F with
    | nil => exact absurd rfl hne
    | cons a as => simp
  rw [mrun, mmatch, mmatch, if_neg (by simp : ¬ (false = true))]
  set K := runLen c (F ++ u) with hKdef
  have hsplit : ascRange 1 K =
      ascRange 1 (F.length - 1) ++ F.length :: ascRange (F.length + 1) (K - F.length) := by
    conv_lhs => rw [show K = (F.length - 1) + (K - F.length + 1) from by omega]
    rw [ascRange_append, show 1 + (F.length - 1) = F.length from by omega,
      ascRange]
  rw [hsplit, List.map_append, List.map_cons, List.map_append,
    List.map_cons, List.flatMap_append]
  have hdead2 : ((List.map
      (fun p => (setG p.1 n ((F ++ u).take ((F ++ u).length - p.2.length)),
        p.2))
      (List.map (fun k => (g, (F ++ u).drop k))
        (ascRange 1 (F.length - 1)))).flatMap
      fun p => mrun rs p.2 p.1) = [] := by
    rw [List.map_map, List.flatMap_map]
    apply List.flatMap_eq_nil_iff.mpr
    intro k hk
    obtain ⟨hk1, hk2⟩ := mem_ascRange k 1 (F.length - 1) hk
    have hklt : k < F.length := by omega
    have hkle : k ≤ F.length := le_of_lt hklt
    have htake : (F ++ u).take k = F.take k := by
      rw [List.take_append_of_le_length hkle]
    have hdrop : (F ++ u).drop k = F.drop k ++ u := by
      rw [List.drop_append_of_le_length hkle]
    have hlen2 : (F ++ u).length - ((F ++ u).drop k).length = k := by
      rw [List.length_drop]
      have : k ≤ (F ++ u).length := by
        rw [List.length_append]
        omega
      omega
    show mrun rs ((F ++ u).drop k)
        (setG g n ((F ++ u).take ((F ++ u).length - ((F ++ u).drop k).length))) =
      []
    rw [hlen2, htake, hdrop]
    exact hdead k hk1 hklt
  rw [hdead2, List.nil_append, List.flatMap_cons]
  simp only [drop_append_len, List.length_append, Nat.add_sub_cancel,
    List.take_left]
  rw [ht]
  exact ⟨_, rfl⟩

theorem exists_cons_of_head_eq {α : Type} (l : List α) (y : α)
    (h : l.head? = some y) : ∃ t, l = y :: t := by
  cases l with
  | nil => cases h
  | cons a t =>
    injection h with h
    exact ⟨t, by rw [h]⟩

/-- The single-character lazy option (the middle initial): the very first
option consumes the one character. -/
theorem mmatch_grp_plusLazy_one (n : GName) (c : CharClass) (ch : Char)
    (u : List Char) (g : Caps) (hm : cmatch c ch = true) :
    ∃ ts, mmatch (RE.grp n (RE.plus false c)) (ch :: u) g =
      (setG g n [ch], u) :: ts := by
  apply exists_cons_of_head_eq
  have h1 : 1 ≤ runLen c (ch :: u) := by
    rw [runLen, if_pos hm]
    omega
  obtain ⟨m, hm2⟩ : ∃ m, runLen c (ch :: u) = m + 1 :=
    ⟨runLen c (ch :: u) - 1, by omega⟩
  rw [mmatch, mmatch, if_neg (by simp : ¬ (false = true)), hm2, ascRange]
  simp [List.head?, Nat.add_sub_cancel_left]

/-! Optional atoms: skipped when the inner expression dies, taken at its
first result otherwise (Python tries the inner alternative first). -/

theorem mrun_opt_skip (r : RE) (rs : List RE) (s : List Char) (g : Caps)
    (h : mmatch r s g = []) :
    mrun (RE.opt r :: rs) s g = mrun rs s g := by
  rw [mrun, mmatch, h, List.nil_append, List.flatMap_cons, List.flatMap_nil,
    List.append_nil]

theorem mrun_opt_first (r : RE) (rs : List RE) (s : List Char) (g : Caps)
    (q y : Caps × List Char)
    (hr : ∃ ts, mmatch r s g = q :: ts)
    (hcont : ∃ t, mrun rs q.2 q.1 = y :: t) :
    ∃ junk, mrun (RE.opt r :: rs) s g = y :: junk := by
  obtain ⟨ts, hts⟩ := hr
  obtain ⟨t, ht⟩ := hcont
  refine ⟨t ++ ((ts ++ [(g, s)]).flatMap fun p => mrun rs p.2 p.1), ?_⟩
  rw [mrun, mmatch, hts, List.cons_append, List.flatMap_cons, ht,
    List.cons_append]

/-! Python string identities used after a successful match -/

theorem takeWhile_all (p : Char → Bool) (l : List Char)
    (h : ∀ c ∈ l, p c = true) : l.takeWhile p = l := by
  induction l with
  | nil => rfl
  | cons a t ih =>
    rw [List.takeWhile_cons, if_pos (h a (List.mem_cons_self _ _)),
      ih fun c hc => h c (List.mem_cons_of_mem _ hc)]

theorem stem_eq_self (s : List Char)
    (h : ∀ c ∈ s, ¬ c = '.' ∧ ¬ c = '/') : stem s = s := by
  have hslash : s.reverse.takeWhile (fun c => c ≠ '/') = s.reverse := by
    apply takeWhile_all
    intro c hc
    exact decide_eq_true (h c (List.mem_reverse.mp hc)).2
  have hdot : s.reverse.takeWhile (fun c => c ≠ '.') = s.reverse := by
    apply takeWhile_all
    intro c hc
    exact decide_eq_true (h c (List.mem_reverse.mp hc)).1
  rw [stem, hslash, List.reverse_reverse, stemName, hdot,
    if_pos (List.length_reverse s)]

theorem dropWhile_head_false (p : Char → Bool) (l : List Char)
    (h : ∀ c, l.head? = some c → p c = false) : l.dropWhile p = l := by
  cases l with
  | nil => rfl
  | cons a t =>
    rw [List.dropWhile_cons, if_neg]
    simp [h a rfl]

theorem pyStrip_eq_self (s : List Char)
    (h1 : ∀ c, s.head? = some c → pyIsSpace c = false)
    (h2 : ∀ c, s.getLast? = some c → pyIsSpace c = false) :
    pyStrip s = s := by
  rw [pyStrip, dropWhile_head_false pyIsSpace s h1,
    dropWhile_head_false pyIsSpace s.reverse
      (fun c hc => h2 c (by rwa [List.head?_reverse] at hc)),
    List.reverse_reverse]

theorem upperChar_eq_self (c : Char) (_ : 'A' ≤ c) (h2 : c ≤ 'Z') :
    pyUpperChar c = c := by
  rw [pyUpperChar, if_neg]
  rintro ⟨hac, -⟩
  exact absurd (le_trans hac h2) (by decide)

theorem pyUpper_eq_self (s : List Char)
    (h : ∀ c ∈ s, 'A' ≤ c ∧ c ≤ 'Z') : pyUpper s = s := by
  rw [pyUpper,
    List.map_congr_left fun c hc => upperChar_eq_self c (h c hc).1 (h c hc).2]
  simp

theorem upper_not_space (c : Char) (h1 : 'A' ≤ c) : pyIsSpace c = false := by
  rw [pyIsSpace]
  simp only [Bool.or_eq_false_iff, decide_eq_false_iff_not]
  refine ⟨⟨⟨⟨⟨?_, ?_⟩, ?_⟩, ?_⟩, ?_⟩, ?_⟩ <;>
    · rintro rfl
      exact absurd h1 (by decide)

/-! Association-list and first-occurrence facts -/

theorem lookupAssoc_mem (l : List (List Char × List Char)) (k : List Char)
    (h : k ∈ l.map Prod.fst) : ∃ v, lookupAssoc l k = some v := by
  induction l with
  | nil => cases h
  | cons p t ih =>
    obtain ⟨a, b⟩ := p
    rw [lookupAssoc]
    by_cases hk : a = k
    · exact ⟨b, if_pos hk⟩
    · rw [if_neg hk]
      rw [List.map_cons] at h
      rcases List.mem_cons.mp h with h1 | h2
      · exact absurd h1.symm hk
      · exact ih h2

theorem mem_split_first {α : Type} [DecidableEq α] (a : α) (l : List α)
    (h : a ∈ l) : ∃ s t, l = s ++ a :: t ∧ a ∉ s := by
  induction l with
  | nil => cases h
  | cons b bs ih =>
    by_cases hab : a = b
    · exact ⟨[], bs, by rw [hab]; rfl, by simp⟩
    · rcases List.mem_cons.mp h with h1 | h2
      · exact absurd h1 hab
      · obtain ⟨s, t, hst, hns⟩ := ih h2
        refine ⟨b :: s, t, by rw [hst]; rfl, ?_⟩
        simp only [List.mem_cons, not_or]
        exact ⟨hab, hns⟩

/-- An all-uppercase alternative that is at least as long as `T` but
different from it cannot be a prefix of `T` followed by an underscore. -/
theorem code_not_prefix (a T u : List Char)
    (hcu : ∀ ch ∈ a, 'A' ≤ ch ∧ ch ≤ 'Z')
    (hlen : T.length ≤ a.length) (hne : ¬ a = T) :
    a.isPrefixOf (T ++ '_' :: u) = false := by
  by_contra hb
  have hp : a <+: (T ++ '_' :: u) := by
    apply List.isPrefixOf_iff_prefix.mp
    cases hx : a.isPrefixOf (T ++ '_' :: u) with
    | true => rfl
    | false => exact absurd hx hb
  obtain ⟨w, hw⟩ := hp
  rcases Nat.lt_or_ge T.length a.length with hlt | hge
  · have h1 : (a ++ w)[T.length]? = a[T.length]? :=
      List.getElem?_append_left hlt
    have h2 : (T ++ '_' :: u)[T.length]? = some '_' := by
      rw [List.getElem?_append_right (le_refl _)]
      simp
    rw [hw, h2] at h1
    have h4 : '_' ∈ a := List.getElem?_mem h1.symm
    exact absurd (hcu '_' h4).2 (by decide)
  · have heq : a.length = T.length := le_antisymm hge hlen
    apply hne
    have h1 := congrArg (List.take a.length) hw
    rw [List.take_left] at h1
    rw [h1, heq, List.take_left]

/-- From membership in the key set, a decomposition of the sorted
alternation list at the first occurrence of `T`, all earlier alternatives
failing against `T_...`. -/
theorem tag_split (mt : List (List Char × List Char)) (T u : List Char)
    (hT : T ∈ mt.map Prod.fst)
    (hupper : ∀ k ∈ mt.map Prod.fst, ∀ ch ∈ k, 'A' ≤ ch ∧ ch ≤ 'Z') :
    ∃ pre post, sortKeysDesc (mt.map Prod.fst) = pre ++ T :: post ∧
      ∀ c ∈ pre, c.isPrefixOf (T ++ '_' :: u) = false := by
  have hTs : T ∈ sortKeysDesc (mt.map Prod.fst) :=
    (sortKeysDesc_perm (mt.map Prod.fst)).mem_iff.mpr hT
  obtain ⟨pre, post, hsp, hnp⟩ := mem_split_first T _ hTs
  refine ⟨pre, post, hsp, ?_⟩
  intro c hc
  have hcl : T.length ≤ c.length := by
    have hpw := sortKeysDesc_pairwise (mt.map Prod.fst)
    rw [hsp] at hpw
    exact (List.pairwise_append.mp hpw).2.2 c hc T (List.mem_cons_self _ _)
  have hcm : c ∈ mt.map Prod.fst := by
    apply (sortKeysDesc_perm (mt.map Prod.fst)).mem_iff.mp
    rw [hsp]
    exact List.mem_append.mpr (Or.inl hc)
  have hcne : ¬ c = T := fun hcc => hnp (hcc ▸ hc)
  exact code_not_prefix c T u (hupper c hcm) hcl hcne

/-- A successful first result consuming the whole input makes `pymatch`
report its captures. -/
theorem pymatch_first (r : RE) (s : List Char) (gF : Caps)
    (junk : List (Caps × List Char))
    (h : mmatch r s {} = (gF, []) :: junk) : pymatch r s = some gF := by
  rw [pymatch, h, List.find?_cons_of_pos _ (by rfl)]
  rfl

theorem plainNameChar_spec (c : Char) (h : plainNameChar c = true) :
    ¬ c = ',' ∧ ¬ c = '_' ∧ ¬ c = '(' ∧ ¬ c = '.' ∧ ¬ c = '/' ∧
      pyIsSpace c = false := by
  simp only [plainNameChar, Bool.and_eq_true, decide_eq_true_eq,
    Bool.not_eq_true'] at h
  exact ⟨h.1.1.1.1.1, h.1.1.1.1.2, h.1.1.1.2, h.1.1.2, h.1.2, h.2⟩

theorem upper_not_dotslash (c : Char) (h : 'A' ≤ c) :
    ¬ c = '.' ∧ ¬ c = '/' :=
  ⟨by rintro rfl; exact absurd h (by decide),
   by rintro rfl; exact absurd h (by decide)⟩

theorem digit_not_dotslash (c : Char) (h : isDigitChar c = true) :
    ¬ c = '.' ∧ ¬ c = '/' := by
  simp only [isDigitChar, Bool.and_eq_true, decide_eq_true_eq] at h
  exact ⟨by rintro rfl; exact absurd h.1 (by decide),
    by rintro rfl; exact absurd h.1 (by decide)⟩

/-- First match of the tail `_{tag}_{date}_{description}` of the default
pattern against its substituted rendering. -/
theorem tail_first (mt : List (List Char × List Char)) (T DT DS : List Char)
    (g : Caps)
    (hsplit : ∃ pre post, sortKeysDesc (mt.map Prod.fst) = pre ++ T :: post ∧
      ∀ a ∈ pre, a.isPrefixOf (T ++ '_' :: (DT ++ '_' :: DS)) = false)
    (hDT : DT.length = 6) (hDTd : ∀ ch ∈ DT, cmatch .digit ch = true)
    (hDSne : DS ≠ []) (hDSa : ∀ ch ∈ DS, cmatch .any ch = true) :
    ∃ t, mrun (tailAtoms mt) ('_' :: (T ++ '_' :: (DT ++ '_' :: DS))) g =
      (setG (setG (setG g .tag T) .date DT) .descr DS, []) :: t := by
  obtain ⟨pre, post, hsp, hpre⟩ := hsplit
  unfold tailAtoms
  rw [hsp]
  refine mrun_cons_first _ _ _ _ (g, T ++ '_' :: (DT ++ '_' :: DS)) _
    (mmatch_lit_first ['_'] (T ++ '_' :: (DT ++ '_' :: DS)) g) ?_
  refine mrun_cons_first _ _ _ _ (setG g .tag T, '_' :: (DT ++ '_' :: DS)) _
    (mmatch_grp_alts_first .tag pre post T ('_' :: (DT ++ '_' :: DS)) g hpre)
    ?_
  refine mrun_cons_first _ _ _ _ (setG g .tag T, DT ++ '_' :: DS) _
    (mmatch_lit_first ['_'] (DT ++ '_' :: DS) _) ?_
  refine mrun_cons_first _ _ _ _ (setG (setG g .tag T) .date DT, '_' :: DS) _
    (mmatch_grp_rep_first .date .digit 6 DT ('_' :: DS) _ hDT hDTd) ?_
  refine mrun_cons_first _ _ _ _ (setG (setG g .tag T) .date DT, DS) _
    (mmatch_lit_first ['_'] DS _) ?_
  have hstep : ∃ ts, mmatch descrRE (DS ++ [])
      (setG (setG g .tag T) .date DT) =
      (setG (setG (setG g .tag T) .date DT) .descr DS, []) :: ts :=
    mmatch_grp_plusGreedy_first .descr .any DS []
      (setG (setG g .tag T) .date DT) hDSne
      (runLen_append_exact .any DS [] hDSa rfl)
  rw [List.append_nil] at hstep
  exact mrun_cons_first _ _ _ _ _ _ hstep ⟨[], rfl⟩

/-- Taking the optional `({dob})` group at its only possible width. -/
theorem dob_first (d : List Char) (rs : List RE) (u : List Char) (g : Caps)
    (y : Caps × List Char)
    (hd : d.length = 6) (hdd : ∀ ch ∈ d, cmatch .digit ch = true)
    (hcont : ∃ t, mrun rs u (setG g .dob d) = y :: t) :
    ∃ junk, mrun (RE.opt (seqList dobAtoms) :: rs)
      ('(' :: (d ++ ')' :: u)) g = y :: junk := by
  refine mrun_opt_first _ _ _ _ (setG g .dob d, u) _ ?_ hcont
  rw [mmatch_seqList]
  unfold dobAtoms
  refine mrun_cons_first _ _ _ _ (g, d ++ ')' :: u) _
    (mmatch_lit_first ['('] (d ++ ')' :: u) g) ?_
  refine mrun_cons_first _ _ _ _ (setG g .dob d, ')' :: u) _
    (mmatch_grp_rep_first .dob .digit 6 d (')' :: u) g hd hdd) ?_
  exact mrun_cons_first _ _ _ _ (setG g .dob d, u) _
    (mmatch_lit_first [')'] u _) ⟨[], rfl⟩

/-- The middle-initial group cannot start at a non-comma character. -/
theorem mi_dead (c' : Char) (σ : List Char) (g : Caps) (h : ¬ c' = ',') :
    mmatch (seqList miAtoms) (c' :: σ) g = [] := by
  rw [mmatch_seqList]
  unfold miAtoms
  exact mrun_cons_dead _ _ _ _ (mmatch_lit_dead [','] (c' :: σ) g
    (isPrefixOf_cons_ne ',' c' [] σ fun hh => h hh.symm))

/-- The dob group cannot start at a non-parenthesis character. -/
theorem dob_dead (c' : Char) (σ : List Char) (g : Caps) (h : ¬ c' = '(') :
    mmatch (seqList dobAtoms) (c' :: σ) g = [] := by
  rw [mmatch_seqList]
  unfold dobAtoms
  exact mrun_cons_dead _ _ _ _ (mmatch_lit_dead ['('] (c' :: σ) g
    (isPrefixOf_cons_ne '(' c' [] σ fun hh => h hh.symm))

/-- After a first-name character that is not `,`, `(` or `_`, the rest of
the default pattern cannot match: both optional groups fail to start and
the mandatory underscore literal fails. -/
theorem nameRest_dead (mt : List (List Char × List Char)) (c' : Char)
    (σ : List Char) (g : Caps)
    (h1 : ¬ c' = ',') (h2 : ¬ c' = '(') (h3 : ¬ c' = '_') :
    mrun (RE.opt (seqList miAtoms) :: RE.opt (seqList dobAtoms) ::
      tailAtoms mt) (c' :: σ) g = [] := by
  rw [mrun_opt_skip _ _ _ _ (mi_dead c' σ g h1),
    mrun_opt_skip _ _ _ _ (dob_dead c' σ g h2)]
  unfold tailAtoms
  exact mrun_cons_dead _ _ _ _ (mmatch_lit_dead ['_'] (c' :: σ) g
    (isPrefixOf_cons_ne '_' c' [] σ fun hh => h3 hh.symm))

/-- The optional middle-initial group, the optional dob group and the
tail, for all four shapes the substituted filename can take. -/
theorem midob_first (mt : List (List Char × List Char))
    (M DOB : Option (List Char)) (T DT DS : List Char) (g : Caps)
    (hM : ∀ m ∈ M, ∃ ch, m = [ch] ∧ 'A' ≤ ch ∧ ch ≤ 'Z')
    (hDOBc : ∀ dv ∈ DOB, dv.length = 6 ∧ ∀ ch ∈ dv, cmatch .digit ch = true)
    (hsplit : ∃ pre post, sortKeysDesc (mt.map Prod.fst) = pre ++ T :: post ∧
      ∀ a ∈ pre, a.isPrefixOf (T ++ '_' :: (DT ++ '_' :: DS)) = false)
    (hDT : DT.length = 6) (hDTd : ∀ ch ∈ DT, cmatch .digit ch = true)
    (hDSne : DS ≠ []) (hDSa : ∀ ch ∈ DS, cmatch .any ch = true) :
    ∃ t, mrun (RE.opt (seqList miAtoms) :: RE.opt (seqList dobAtoms) ::
        tailAtoms mt)
      (miPart M ++ (dobPart DOB ++
        '_' :: (T ++ '_' :: (DT ++ '_' :: DS)))) g =
      (setG (setG (setG (dobCaps (miCaps g M) DOB)
        .tag T) .date DT) .descr DS, []) :: t := by
  rcases M with _ | m
  · rcases DOB with _ | dv
    · simp only [miPart, dobPart, miCaps, dobCaps, List.nil_append]
      rw [mrun_opt_skip _ _ _ _
        (mi_dead '_' (T ++ '_' :: (DT ++ '_' :: DS)) g (by decide))]
      rw [mrun_opt_skip _ _ _ _
        (dob_dead '_' (T ++ '_' :: (DT ++ '_' :: DS)) g (by decide))]
      exact tail_first mt T DT DS g hsplit hDT hDTd hDSne hDSa
    · simp only [miPart, dobPart, miCaps, dobCaps, List.nil_append,
        List.cons_append, List.append_assoc, List.singleton_append]
      rw [mrun_opt_skip _ _ _ _
        (mi_dead '(' (dv ++ ')' :: '_' :: (T ++ '_' :: (DT ++ '_' :: DS))) g
          (by decide))]
      exact dob_first dv (tailAtoms mt)
        ('_' :: (T ++ '_' :: (DT ++ '_' :: DS))) g _
        (hDOBc dv rfl).1 (hDOBc dv rfl).2
        (tail_first mt T DT DS (setG g .dob dv) hsplit hDT hDTd hDSne hDSa)
  · obtain ⟨ch, rfl, hA, hZ⟩ := hM m rfl
    have hchComma : ¬ ch = ',' := fun hh => absurd (hh ▸ hA) (by decide)
    rcases DOB with _ | dv
    · simp only [miPart, dobPart, miCaps, dobCaps, List.nil_append,
        List.cons_append, List.append_assoc, List.singleton_append]
      refine mrun_opt_first _ _ _ _ (setG g .middleInitial [ch],
        '_' :: (T ++ '_' :: (DT ++ '_' :: DS))) _ ?_ ?_
      · rw [mmatch_seqList]
        unfold miAtoms
        refine mrun_cons_first _ _ _ _
          (g, ch :: '_' :: (T ++ '_' :: (DT ++ '_' :: DS))) _
          (mmatch_lit_first [','] (ch :: '_' :: (T ++ '_' :: (DT ++ '_' ::
            DS))) g) ?_
        refine mrun_cons_first _ _ _ _
          (g, ch :: '_' :: (T ++ '_' :: (DT ++ '_' :: DS))) _
          ⟨[], mmatch_star_zero .space _ g
            (runLen_zero_of_head .space ch _ (upper_not_space ch hA))⟩ ?_
        exact mrun_cons_first _ _ _ _ (setG g .middleInitial [ch],
            '_' :: (T ++ '_' :: (DT ++ '_' :: DS))) _
          (mmatch_grp_plusLazy_one .middleInitial .notComma ch _ g
            (decide_eq_true hchComma)) ⟨[], rfl⟩
      · show ∃ t, mrun (RE.opt (seqList dobAtoms) :: tailAtoms mt)
          ('_' :: (T ++ '_' :: (DT ++ '_' :: DS)))
          (setG g .middleInitial [ch]) =
          (setG (setG (setG (setG g .middleInitial [ch]) .tag T) .date DT)
            .descr DS, []) :: t
        rw [mrun_opt_skip _ _ _ _
          (dob_dead '_' (T ++ '_' :: (DT ++ '_' :: DS))
            (setG g .middleInitial [ch]) (by decide))]
        exact tail_first mt T DT DS (setG g .middleInitial [ch])
          hsplit hDT hDTd hDSne hDSa
    · simp only [miPart, dobPart, miCaps, dobCaps, List.nil_append,
        List.cons_append, List.append_assoc, List.singleton_append]
      refine mrun_opt_first _ _ _ _ (setG g .middleInitial [ch],
        '(' :: (dv ++ ')' :: '_' :: (T ++ '_' :: (DT ++ '_' :: DS)))) _ ?_ ?_
      · rw [mmatch_seqList]
        unfold miAtoms
        refine mrun_cons_first _ _ _ _
          (g, ch :: '(' :: (dv ++ ')' :: '_' :: (T ++ '_' :: (DT ++ '_' ::
            DS)))) _
          (mmatch_lit_first [','] (ch :: '(' :: (dv ++ ')' :: '_' ::
            (T ++ '_' :: (DT ++ '_' :: DS)))) g) ?_
        refine mrun_cons_first _ _ _ _
          (g, ch :: '(' :: (dv ++ ')' :: '_' :: (T ++ '_' :: (DT ++ '_' ::
            DS)))) _
          ⟨[], mmatch_star_zero .space _ g
            (runLen_zero_of_head .space ch _ (upper_not_space ch hA))⟩ ?_
        exact mrun_cons_first _ _ _ _ (setG g .middleInitial [ch],
            '(' :: (dv ++ ')' :: '_' :: (T ++ '_' :: (DT ++ '_' :: DS)))) _
          (mmatch_grp_plusLazy_one .middleInitial .notComma ch _ g
            (decide_eq_true hchComma)) ⟨[], rfl⟩
      · show ∃ t, mrun (RE.opt (seqList dobAtoms) :: tailAtoms mt)
          ('(' :: (dv ++ ')' :: '_' :: (T ++ '_' :: (DT ++ '_' :: DS))))
          (setG g .middleInitial [ch]) =
          (setG (setG (setG (setG (setG g .middleInitial [ch]) .dob dv)
            .tag T) .date DT) .descr DS, []) :: t
        exact dob_first dv (tailAtoms mt)
          ('_' :: (T ++ '_' :: (DT ++ '_' :: DS)))
          (setG g .middleInitial [ch]) _
          (hDOBc dv rfl).1 (hDOBc dv rfl).2
          (tail_first mt T DT DS (setG (setG g .middleInitial [ch]) .dob dv)
            hsplit hDT hDTd hDSne hDSa)

/-- The substituted default filename in head-normal form. -/
theorem substDefault_eq (L F : List Char) (M DOB : Option (List Char))
    (T DT DS : List Char) :
    substDefault L F M DOB T DT DS =
      L ++ ',' :: (F ++
        (miPart M ++ (dobPart DOB ++
          '_' :: (T ++ '_' :: (DT ++ '_' :: DS))))) := by
  rcases M with _ | m <;> rcases DOB with _ | dv <;>
    simp [substDefault, miPart, dobPart, List.append_assoc]

/-- Evaluation of `parse_filename` after a successful match, from the
values of the relevant group lookups. -/
theorem parse_post (mt : List (List Char × List Char)) (r : RE)
    (fn : List Char) (GF : Caps) (L F : List Char)
    (Mi DOBi : Option (List Char)) (T full DT DS : List Char)
    (docDate : PyDate)
    (hpm : pymatch r (stem fn) = some GF)
    (htag : pyGet r GF .tag (some []) = some T)
    (hupT : pyUpper T = T)
    (hfull : lookupAssoc mt T = some full)
    (hdate : pyGet r GF .date (some []) = some DT)
    (hdoc : parse_date_mmddyy DT = some docDate)
    (hlast : pyGet r GF .lastName (some []) = some L)
    (hfirst : pyGet r GF .firstName (some []) = some F)
    (hstripL : pyStrip L = L) (hstripF : pyStrip F = F)
    (hLne : L ≠ []) (hFne : F ≠ [])
    (hmi : pyGet r GF .middleInitial none = Mi)
    (hmiv : ∀ m ∈ Mi, m ≠ [] ∧ pyStrip m = m)
    (hdescr : pyGet r GF .descr (some []) = some DS)
    (hstripDS : pyStrip DS = DS) (hDSne : DS ≠ [])
    (hdob : pyGet r GF .dob none = DOBi)
    (hdobv : ∀ dv ∈ DOBi, dv ≠ []) :
    parse_filename fn mt r = .ok (some
      { last_name := L, first_name := F, middle_initial := Mi,
        dob := Option.map isoformat (DOBi.bind parse_date_mmddyy),
        tag_code := T, tag_full := full, date := isoformat docDate,
        description := DS }) := by
  unfold parse_filename
  rw [hpm]
  dsimp only
  rw [htag]
  dsimp only
  rw [hupT, hfull]
  dsimp only
  rw [hdate]
  dsimp only
  rw [hdoc]
  dsimp only
  rw [hlast]
  dsimp only
  rw [hfirst]
  dsimp only
  rw [hmi, hdescr]
  dsimp only
  rw [hdob, hstripL, hstripF, hstripDS]
  rw [if_neg (by rintro (hh | hh) <;> [exact hLne hh; exact hFne hh])]
  rw [if_neg hDSne]
  rcases Mi with _ | m
  · rcases DOBi with _ | dv
    · rfl
    · dsimp only
      rw [if_neg (hdobv dv rfl)]
      rfl
  · obtain ⟨hmne, hmstrip⟩ := hmiv m rfl
    dsimp only
    rw [if_neg hmne, hmstrip, if_neg hmne]
    rcases DOBi with _ | dv
    · rfl
    · dsimp only
      rw [if_neg (hdobv dv rfl)]
      rfl

/-! ### Claim C4 -/

set_option maxHeartbeats 4000000 in
/-- **C4** (round trip, for the default template): for the default
template `{name}({dob})_{tag}_{date}_{description}` and every assignment
of valid field values (names non-empty and free of delimiter, extension
and whitespace collisions, middle initial a single uppercase letter, dob
and date valid `MMDDYY` digit strings, tag one of the known non-empty
uppercase codes, description non-empty with no dot, slash, newline or
surrounding whitespace), substituting the values into the template and
parsing the result with the compiled default pattern and the same tag
map recovers exactly the original field values, with `date` and `dob`
re-normalized to ISO-8601. -/
theorem default_pattern_round_trip (mt : List (List Char × List Char))
    (L F : List Char) (M DOB : Option (List Char)) (T DT DS : List Char)
    (hv : validFields mt L F M DOB T DT DS = true) :
    ∃ docDate full,
      parse_date_mmddyy DT = some docDate ∧
      lookupAssoc mt T = some full ∧
      parse_filename (substDefault L F M DOB T DT DS) mt (defaultRE mt) =
        .ok (some
          { last_name := L, first_name := F, middle_initial := M,
            dob := Option.map isoformat (DOB.bind parse_date_mmddyy),
            tag_code := T, tag_full := full,
            date := isoformat docDate, description := DS }) := by
  simp only [validFields, Bool.and_eq_true, decide_eq_true_eq] at hv
  obtain ⟨⟨⟨⟨⟨⟨⟨⟨⟨⟨⟨⟨⟨⟨hLne, hLall⟩, hFne⟩, hFall⟩, hMall⟩, hDOBall⟩,
    hDT6⟩, hDTall⟩, hDTsome⟩, hTmem⟩, hKall⟩, hDSne⟩, hDSall⟩, hDSh⟩,
    hDSl⟩ := hv
  have hLplain : ∀ c ∈ L, ¬ c = ',' ∧ ¬ c = '_' ∧ ¬ c = '(' ∧ ¬ c = '.' ∧
      ¬ c = '/' ∧ pyIsSpace c = false :=
    fun c hc => plainNameChar_spec c (List.all_eq_true.mp hLall c hc)
  have hFplain : ∀ c ∈ F, ¬ c = ',' ∧ ¬ c = '_' ∧ ¬ c = '(' ∧ ¬ c = '.' ∧
      ¬ c = '/' ∧ pyIsSpace c = false :=
    fun c hc => plainNameChar_spec c (List.all_eq_true.mp hFall c hc)
  have hKup : ∀ k ∈ mt.map Prod.fst, ∀ c ∈ k, 'A' ≤ c ∧ c ≤ 'Z' := by
    intro k hk c hc
    have h2 := List.all_eq_true.mp hKall k hk
    simp only [Bool.and_eq_true, decide_eq_true_eq] at h2
    have h3 := List.all_eq_true.mp h2.2 c hc
    simpa only [Bool.and_eq_true, decide_eq_true_eq] using h3
  have hTup : ∀ c ∈ T, 'A' ≤ c ∧ c ≤ 'Z' := hKup T hTmem
  have hMex : ∀ m ∈ M, ∃ ch, m = [ch] ∧ 'A' ≤ ch ∧ ch ≤ 'Z' := by
    intro m hm
    rcases M with _ | m0
    · cases hm
    · cases hm
      have h2 : (decide (m.length = 1) &&
          m.all fun c => decide ('A' ≤ c) && decide (c ≤ 'Z')) = true := hMall
      simp only [Bool.and_eq_true, decide_eq_true_eq, List.all_eq_true] at h2
      obtain ⟨h1len, hchars⟩ := h2
      rcases m with _ | ⟨ch, _ | ⟨c2, tl⟩⟩
      · simp at h1len
      · exact ⟨ch, rfl, hchars ch (by simp)⟩
      · simp only [List.length_cons] at h1len
        omega
  have hDOBex : ∀ dv ∈ DOB, dv.length = 6 ∧
      ∀ ch ∈ dv, cmatch .digit ch = true := by
    intro dv hdv
    rcases DOB with _ | d0
    · cases hdv
    · cases hdv
      have h2 : (decide (dv.length = 6) && dv.all isDigitChar &&
          (parse_date_mmddyy dv).isSome) = true := hDOBall
      simp only [Bool.and_eq_true, decide_eq_true_eq, List.all_eq_true] at h2
      exact ⟨h2.1.1, fun ch hc => h2.1.2 ch hc⟩
  have hDTd : ∀ ch ∈ DT, cmatch .digit ch = true :=
    fun ch hc => List.all_eq_true.mp hDTall ch hc
  have hDSa : ∀ ch ∈ DS, cmatch .any ch = true := by
    intro ch hc
    have h2 := List.all_eq_true.mp hDSall ch hc
    simp only [Bool.and_eq_true, decide_eq_true_eq] at h2
    exact decide_eq_true h2.2
  have hDSdotslash : ∀ c ∈ DS, ¬ c = '.' ∧ ¬ c = '/' := by
    intro c hc
    have h2 := List.all_eq_true.mp hDSall c hc
    simp only [Bool.and_eq_true, decide_eq_true_eq] at h2
    exact ⟨h2.1.1, h2.1.2⟩
  have hsplit := tag_split mt T (DT ++ '_' :: DS) hTmem hKup
  have hstem : stem (substDefault L F M DOB T DT DS) =
      substDefault L F M DOB T DT DS := by
    apply stem_eq_self
    intro c hc
    unfold substDefault at hc
    simp only [List.mem_append, List.mem_cons, List.not_mem_nil,
      or_false] at hc
    rcases hc with
      ((((((((((hc | hc) | hc) | hc) | hc) | hc) | hc) | hc) | hc) | hc) |
        hc)
    · exact ⟨(hLplain c hc).2.2.2.1, (hLplain c hc).2.2.2.2.1⟩
    · subst hc
      exact (by decide)
    · exact ⟨(hFplain c hc).2.2.2.1, (hFplain c hc).2.2.2.2.1⟩
    · rcases M with _ | m0
      · simp at hc
      · obtain ⟨ch, hm0, hA, hZ⟩ := hMex m0 rfl
        subst hm0
        simp only [List.mem_append, List.mem_cons, List.not_mem_nil,
          or_false] at hc
        rcases hc with rfl | rfl
        · exact (by decide)
        · exact upper_not_dotslash c hA
    · rcases DOB with _ | d0
      · simp at hc
      · simp only [List.mem_append, List.mem_cons, List.not_mem_nil,
          or_false] at hc
        rcases hc with (rfl | hc) | rfl
        · exact (by decide)
        · exact digit_not_dotslash c ((hDOBex d0 rfl).2 c hc)
        · exact (by decide)
    · subst hc
      exact (by decide)
    · exact upper_not_dotslash c (hTup c hc).1
    · subst hc
      exact (by decide)
    · exact digit_not_dotslash c (List.all_eq_true.mp hDTall c hc)
    · subst hc
      exact (by decide)
    · exact hDSdotslash c hc
  have hstripL : pyStrip L = L :=
    pyStrip_eq_self L
      (fun c hc => (hLplain c (List.mem_of_mem_head? hc)).2.2.2.2.2)
      (fun c hc => (hLplain c (List.mem_of_mem_getLast? hc)).2.2.2.2.2)
  have hstripF : pyStrip F = F :=
    pyStrip_eq_self F
      (fun c hc => (hFplain c (List.mem_of_mem_head? hc)).2.2.2.2.2)
      (fun c hc => (hFplain c (List.mem_of_mem_getLast? hc)).2.2.2.2.2)
  have hstripDS : pyStrip DS = DS := by
    apply pyStrip_eq_self
    · intro c hc
      rw [hc] at hDSh
      simpa using hDSh
    · intro c hc
      rw [hc] at hDSl
      simpa using hDSl
  have hTU : pyUpper T = T := pyUpper_eq_self T hTup
  obtain ⟨full, hfull⟩ := lookupAssoc_mem mt T hTmem
  obtain ⟨docDate, hdoc⟩ := Option.isSome_iff_exists.mp hDTsome
  refine ⟨docDate, full, hdoc, hfull, ?_⟩
  obtain ⟨f₀, F', rfl⟩ : ∃ a t, F = a :: t := by
    cases F with
    | nil => exact absurd rfl hFne
    | cons a t => exact ⟨a, t, rfl⟩
  have hchain : ∃ junk, mmatch (defaultRE mt)
      (substDefault L (f₀ :: F') M DOB T DT DS) {} =
      (setG (setG (setG (dobCaps (miCaps
        (setG (setG {} .lastName L) .firstName (f₀ :: F')) M) DOB)
        .tag T) .date DT) .descr DS, []) :: junk := by
    rw [substDefault_eq]
    rw [show defaultRE mt =
      seqList (nameRE :: RE.opt (seqList dobAtoms) :: tailAtoms mt)
      from rfl]
    rw [mmatch_seqList]
    rw [show nameRE = seqList nameAtoms from rfl, mrun_seqList_cons]
    rw [show nameAtoms ++ (RE.opt (seqList dobAtoms) :: tailAtoms mt) =
      RE.grp .lastName (.plus true .notComma) :: RE.lit [','] ::
      RE.star .space :: RE.grp .firstName (.plus false .notComma) ::
      RE.opt (seqList miAtoms) :: RE.opt (seqList dobAtoms) ::
      tailAtoms mt from rfl]
    refine mrun_cons_first _ _ _ _ (setG {} .lastName L,
      ',' :: ((f₀ :: F') ++ (miPart M ++ (dobPart DOB ++
          '_' :: (T ++ '_' :: (DT ++ '_' :: DS)))))) _ ?_ ?_
    · exact mmatch_grp_plusGreedy_first .lastName .notComma L
        (',' :: ((f₀ :: F') ++ (miPart M ++ (dobPart DOB ++
          '_' :: (T ++ '_' :: (DT ++ '_' :: DS)))))) {} hLne
        (runLen_append_exact .notComma L _
          (fun c hc => decide_eq_true (hLplain c hc).1)
          (runLen_zero_of_head .notComma ',' _ (by decide)))
    · refine mrun_cons_first _ _ _ _ (setG {} .lastName L,
        (f₀ :: F') ++ (miPart M ++ (dobPart DOB ++
          '_' :: (T ++ '_' :: (DT ++ '_' :: DS))))) _
        (mmatch_lit_first [','] ((f₀ :: F') ++ (miPart M ++ (dobPart DOB ++
          '_' :: (T ++ '_' :: (DT ++ '_' :: DS)))))
          (setG {} .lastName L)) ?_
      refine mrun_cons_first _ _ _ _ (setG {} .lastName L,
        (f₀ :: F') ++ (miPart M ++ (dobPart DOB ++
          '_' :: (T ++ '_' :: (DT ++ '_' :: DS))))) _
        ⟨[], mmatch_star_zero .space ((f₀ :: F') ++ (miPart M ++ (dobPart DOB ++
          '_' :: (T ++ '_' :: (DT ++ '_' :: DS)))))
          (setG {} .lastName L)
          (runLen_zero_of_head .space f₀ _
            (hFplain f₀ (by simp)).2.2.2.2.2)⟩ ?_
      refine mrun_grp_plusLazy_first .firstName .notComma _ (f₀ :: F')
        (miPart M ++ (dobPart DOB ++
          '_' :: (T ++ '_' :: (DT ++ '_' :: DS))))
        (setG {} .lastName L) (setG (setG (setG (dobCaps (miCaps
        (setG (setG {} .lastName L) .firstName (f₀ :: F')) M) DOB)
        .tag T) .date DT) .descr DS, []) (by simp)
        (fun ch hc => decide_eq_true (hFplain ch hc).1) ?_ ?_
      · intro k hk1 hk2
        rw [List.drop_eq_getElem_cons hk2]
        exact nameRest_dead mt _ _ _
          (hFplain _ (List.getElem_mem hk2)).1
          (hFplain _ (List.getElem_mem hk2)).2.2.1
          (hFplain _ (List.getElem_mem hk2)).2.1
      · exact midob_first mt M DOB T DT DS
          (setG (setG {} .lastName L) .firstName (f₀ :: F'))
          hMex hDOBex hsplit hDT6 hDTd hDSne hDSa
  obtain ⟨junk, hjunk⟩ := hchain
  have hpm := pymatch_first _ _ _ _ hjunk
  have hmiv1 : ∀ m1 ∈ M, m1 ≠ [] ∧ pyStrip m1 = m1 := by
    intro m1 hm1
    obtain ⟨ch, hm0, hA, hZ⟩ := hMex m1 hm1
    subst hm0
    constructor
    · simp
    · apply pyStrip_eq_self
      · intro c hc
        rw [show List.head? [ch] = some ch from rfl] at hc
        injection hc with hh
        subst hh
        exact upper_not_space ch hA
      · intro c hc
        rw [show List.getLast? [ch] = some ch from rfl] at hc
        injection hc with hh
        subst hh
        exact upper_not_space ch hA
  have hdobv1 : ∀ dv ∈ DOB, dv ≠ [] := by
    intro dv hdv hnil
    have h6 := (hDOBex dv hdv).1
    rw [hnil] at h6
    exact absurd h6 (by decide)
  rcases M with _ | m0
  · rcases DOB with _ | d0
    · exact parse_post mt (defaultRE mt) _
        (setG (setG (setG (setG (setG {} .lastName L) .firstName (f₀ :: F')) .tag T) .date DT) .descr DS) L (f₀ :: F') none none
        T full DT DS docDate (by rw [hstem]; exact hpm) rfl hTU hfull rfl
        hdoc rfl rfl hstripL hstripF hLne hFne rfl hmiv1
        rfl hstripDS hDSne rfl hdobv1
    · exact parse_post mt (defaultRE mt) _
        (setG (setG (setG (setG (setG (setG {} .lastName L) .firstName (f₀ :: F')) .dob d0) .tag T) .date DT) .descr DS) L (f₀ :: F') none (some d0)
        T full DT DS docDate (by rw [hstem]; exact hpm) rfl hTU hfull rfl
        hdoc rfl rfl hstripL hstripF hLne hFne rfl hmiv1
        rfl hstripDS hDSne rfl hdobv1
  · rcases DOB with _ | d0
    · exact parse_post mt (defaultRE mt) _
        (setG (setG (setG (setG (setG (setG {} .lastName L) .firstName (f₀ :: F')) .middleInitial m0) .tag T) .date DT) .descr DS) L (f₀ :: F') (some m0) none
        T full DT DS docDate (by rw [hstem]; exact hpm) rfl hTU hfull rfl
        hdoc rfl rfl hstripL hstripF hLne hFne rfl hmiv1
        rfl hstripDS hDSne rfl hdobv1
    · exact parse_post mt (defaultRE mt) _
        (setG (setG (setG (setG (setG (setG (setG {} .lastName L) .firstName (f₀ :: F')) .middleInitial m0) .dob d0) .tag T) .date DT) .descr DS) L (f₀ :: F') (some m0) (some d0)
        T full DT DS docDate (by rw [hstem]; exact hpm) rfl hTU hfull rfl
        hdoc rfl rfl hstripL hstripF hLne hFne rfl hmiv1
        rfl hstripDS hDSne rfl hdobv1

/-- Witness for C4: the round-trip theorem applied at a concrete valid
assignment over the default template, with middle initial and dob
present. -/
theorem default_pattern_round_trip_witness :
    validFields [(['H', 'P'], ['h'])] ['A'] ['B'] (some ['M'])
      (some ['0', '1', '0', '1', '5', '0']) ['H', 'P']
      ['0', '2', '0', '3', '2', '6'] ['C', 'X'] = true ∧
    (∃ docDate full,
      parse_date_mmddyy ['0', '2', '0', '3', '2', '6'] = some docDate ∧
      lookupAssoc [(['H', 'P'], ['h'])] ['H', 'P'] = some full ∧
      parse_filename (substDefault ['A'] ['B'] (some ['M'])
          (some ['0', '1', '0', '1', '5', '0']) ['H', 'P']
          ['0', '2', '0', '3', '2', '6'] ['C', 'X'])
        [(['H', 'P'], ['h'])] (defaultRE [(['H', 'P'], ['h'])]) =
      .ok (some
        { last_name := ['A'], first_name := ['B']
          middle_initial := some ['M']
          dob := Option.map isoformat
            ((some ['0', '1', '0', '1', '5', '0']).bind parse_date_mmddyy)
          tag_code := ['H', 'P'], tag_full := full
          date := isoformat docDate, description := ['C', 'X'] })) :=
  ⟨by decide, default_pattern_round_trip _ _ _ _ _ _ _ _ (by decide)⟩

/-- **C4 counterexample**: the unrestricted round-trip claim — over every
compiling template and every assignment of plausibly valid field values —
fails on the real code in two independent ways.  (1) On the default
template, the valid-looking description `A.B` (non-empty, no separator
collision) substitutes to `A,B_R_020326_A.B`; `Path(...).stem` treats
`.B` as an extension and the parse returns description `A`, not `A.B`.
(2) The template `{last_name}{first_name}_{tag}_{date}_{description}`
compiles, but substituting last name `AB` and first name `C` yields
`ABC_R_020326_X`, which parses back as last name `A` and first name `BC`:
with two adjacent lazy `.+?` groups the split point is not recoverable. -/
theorem round_trip_counterexample :
    parse_filename (substDefault ['A'] ['B'] none none ['R']
        ['0', '2', '0', '3', '2', '6'] ['A', '.', 'B'])
        [(['R'], ['r'])] (defaultRE [(['R'], ['r'])]) =
      .ok (some
        { last_name := ['A'], first_name := ['B'], middle_initial := none
          dob := none, tag_code := ['R'], tag_full := ['r']
          date := ['2', '0', '2', '6', '-', '0', '2', '-', '0', '3']
          description := ['A'] }) ∧
    (∃ r, compile_pattern
        "{last_name}{first_name}_{tag}_{date}_{description}".data
        [(['R'], ['r'])] = .ok r ∧
      parse_filename
        ['A', 'B', 'C', '_', 'R', '_', '0', '2', '0', '3', '2', '6',
          '_', 'X'] [(['R'], ['r'])] r =
      .ok (some
        { last_name := ['A'], first_name := ['B', 'C']
          middle_initial := none, dob := none, tag_code := ['R']
          tag_full := ['r']
          date := ['2', '0', '2', '6', '-', '0', '2', '-', '0', '3']
          description := ['X'] })) :=
  ⟨by rfl, ⟨_, rfl, by rfl⟩⟩

end Chrono

namespace Chrono

/-! ### Claim C6 -/

/-- **C6**: `parse_date_mmddyy` decodes the two-digit year `yy` as `2000+yy`
when `yy ≤ 50` and `1900+yy` otherwise, returns `none` for any string that is
not exactly six digits or is not a valid calendar date, and in particular
maps `"010150"` to 2050-01-01, `"010151"` to 1951-01-01 and `"999999"` to
`none`. -/
theorem parse_date_mmddyy_spec (s : List Char) :
    (¬ (s.length = 6 ∧ s.all isDigitChar) → parse_date_mmddyy s = none) ∧
    (s.length = 6 ∧ s.all isDigitChar →
      parse_date_mmddyy s =
        (let mm := digitsToNat (s.take 2)
         let dd := digitsToNat ((s.drop 2).take 2)
         let yy := digitsToNat (s.drop 4)
         let year := if yy ≤ 50 then 2000 + yy else 1900 + yy
         if validDate year mm dd then some ⟨year, mm, dd⟩ else none)) ∧
    parse_date_mmddyy "010150".data = some ⟨2050, 1, 1⟩ ∧
    parse_date_mmddyy "010151".data = some ⟨1951, 1, 1⟩ ∧
    parse_date_mmddyy "999999".data = none := by
  refine ⟨fun h => ?_, fun h => ?_, by decide, by decide, by decide⟩
  · simp only [parse_date_mmddyy, if_neg h]
  · simp only [parse_date_mmddyy, if_pos h]

/-- Witness for C6: instantiates the quantifier and discharges each
hypothesis at concrete inputs. -/
theorem parse_date_mmddyy_spec_witness :
    parse_date_mmddyy "0101".data = none ∧
    parse_date_mmddyy "013026".data =
      (if validDate 2026 1 30 then some ⟨2026, 1, 30⟩ else none) :=
  ⟨(parse_date_mmddyy_spec "0101".data).1 (by decide),
   (parse_date_mmddyy_spec "013026".data).2.1 (by decide)⟩

end Chrono
